import Mathlib

/-!
Shallow embedding of `src/simple-text-editor.c` (a kilo-style terminal text
editor) for checking the natural-language specification against the code.

Bytes are modelled as `Nat` (values 0..255), C strings as `List Nat` of their
content without the terminating NUL (the NUL-terminated buffer view used by
the C pointer arithmetic is modelled separately for the buffer-level claims).
C `int` fields that are provably non-negative in every reachable state are
modelled as `Nat`; `coloff` (which the source can drive negative) and the
search bookkeeping (which uses the sentinel -1) are modelled as `Int`.
Terminal I/O is pure display and is elided; `editorRefreshScreen` keeps its
state effect (`editorScroll`).  Filesystem outcomes in `editorSave` are
abstracted as three booleans (open / ftruncate / write success).  Key input
is modelled as a list of decoded key codes (the output of `editorReadKey`).
-/

/-- Conversion of a Lean string literal to the byte list of its C contents. -/
def strBytes (s : String) : List Nat := s.data.map Char.toNat

/-- Highlight classes, from `enum editorHighlight`. -/
inductive HL where
  | normal
  | str
  | comment
  | mlcomment
  | keyword1
  | keyword2
  | number
  | mtch
deriving DecidableEq, Inhabited

/-- Syntax definition record, from `struct editorSyntax`.  The comment
delimiter fields are byte lists; a length-0 list plays the role of the C
NULL / empty string (the code only ever tests their `strlen`).  The two
flag bits of `flags` are modelled as two booleans. -/
structure SynDef where
  filetype : String
  filematch : List (List Nat)
  keywords : List (List Nat)
  singleline_comment_start : List Nat
  multiline_comment_start : List Nat
  multiline_comment_end : List Nat
  hlNumbers : Bool
  hlStrings : Bool
deriving DecidableEq, Inhabited

/-- `C_HL_extensions` from the source. -/
def C_HL_extensions : List (List Nat) := [strBytes ".c", strBytes ".h", strBytes ".cpp"]

/-- `C_HL_keywords` from the source; secondary keywords carry the trailing pipe. -/
def C_HL_keywords : List (List Nat) :=
  [strBytes "switch", strBytes "if", strBytes "while", strBytes "for",
   strBytes "break", strBytes "continue", strBytes "return", strBytes "else",
   strBytes "struct", strBytes "union", strBytes "typedef", strBytes "static",
   strBytes "enum", strBytes "class", strBytes "case",
   strBytes "int|", strBytes "long|", strBytes "double|", strBytes "float|",
   strBytes "char|", strBytes "unsigned|", strBytes "signed|", strBytes "void|"]

/-- The single HLDB entry for C files. -/
def cSyntax : SynDef :=
  { filetype := "c"
    filematch := C_HL_extensions
    keywords := C_HL_keywords
    singleline_comment_start := strBytes "//"
    multiline_comment_start := strBytes "/*"
    multiline_comment_end := strBytes "*/"
    hlNumbers := true
    hlStrings := true }

/-- `HLDB` array from the source. -/
def HLDB : List SynDef := [cSyntax]

/-- ASCII `isspace` on a byte. -/
def isspaceB (c : Nat) : Bool := c = 32 || (9 ≤ c && c ≤ 13)

/-- ASCII `isdigit` on a byte. -/
def isdigitB (c : Nat) : Bool := 48 ≤ c && c ≤ 57

/-- ASCII `iscntrl` on a byte. -/
def iscntrlB (c : Nat) : Bool := c < 32 || c = 127

/-- `is_separator` from the source: whitespace, NUL, or one of the punctuation
bytes of the C literal (comma, dot, parens, plus, minus, slash, star, equals,
tilde, percent, angle brackets, square brackets, semicolon).
(`strchr(s, 0)` finds the terminator, so NUL is a separator both ways.) -/
def is_separator (c : Nat) : Bool :=
  isspaceB c || c = 0 || (strBytes ",.()+-/*=~%<>[];").contains c

/-- `TAB_STOP_LENGTH` from the source. -/
def TAB_STOP_LENGTH : Nat := 8

/-- `CONFIRM_QUIT_TIMES` from the source. -/
def CONFIRM_QUIT_TIMES : Nat := 3

/-- Key codes from `enum editorKey`. -/
def BACKSPACE : Nat := 127
def ARROW_LEFT : Nat := 1000
def ARROW_RIGHT : Nat := 1001
def ARROW_UP : Nat := 1002
def ARROW_DOWN : Nat := 1003
def PAGE_UP : Nat := 1004
def PAGE_DOWN : Nat := 1005
def HOME_KEY : Nat := 1006
def END_KEY : Nat := 1007
def DEL_KEY : Nat := 1008

/-- The tab-expansion loop body of `editorUpdateRow`: `idx` is the current
output column; a tab emits one space and then spaces until `idx` is a
multiple of `TAB_STOP_LENGTH`; any other byte is copied. -/
def renderGo : Nat → List Nat → List Nat
  | _, [] => []
  | idx, c :: cs =>
    if c = 9 then
      let pad := TAB_STOP_LENGTH - idx % TAB_STOP_LENGTH
      List.replicate pad 32 ++ renderGo (idx + pad) cs
    else c :: renderGo (idx + 1) cs

/-- The `render` contents produced by `editorUpdateRow` from `chars`. -/
def renderChars (chars : List Nat) : List Nat := renderGo 0 chars

/-- The inner keyword loop of `editorUpdateSyntax`: find the first keyword of
the table that matches at position `i` of `render` (byte equality over its
length, with the trailing pipe stripped for secondary keywords, and a
separator — reading the NUL terminator at end of line — right after).
Returns the consumed length and whether it is a secondary keyword. -/
def findKw (keywords : List (List Nat)) (render : List Nat) (i : Nat) : Option (Nat × Bool) :=
  keywords.findSome? fun kw =>
    let klen0 := kw.length
    let kw2 := kw.getD (klen0 - 1) 0 = 124
    let klen := if kw2 then klen0 - 1 else klen0
    if (kw.take klen).isPrefixOf (render.drop i) && is_separator (render.getD (i + klen) 0) then
      some (klen, kw2)
    else none

/-- The scanning loop of `editorUpdateSyntax` over one `render` line.
State: fuel (the loop advances `i` by at least one per iteration, so
`render.length` iterations suffice; the fuel exhaustion case pads with
`HL.normal`, the value the initial `memset` leaves), position `i`, the
highlight entries written so far in reverse order (`hl[i-1]` is the head),
`prev_sep`, `in_string` (0 or the opening quote byte), `in_comment`.
Returns the full highlight array and the final `in_comment`. -/
def syntaxGo (syn : SynDef) (render : List Nat) :
    Nat → Nat → List HL → Bool → Nat → Bool → List HL × Bool
  | 0, i, acc, _, _, ic => (acc.reverse ++ List.replicate (render.length - i) HL.normal, ic)
  | fuel + 1, i, acc, ps, istr, ic =>
    if i < render.length then
      let scs := syn.singleline_comment_start
      let mcs := syn.multiline_comment_start
      let mce := syn.multiline_comment_end
      let c := render.getD i 0
      let prev_hl := acc.headD HL.normal
      if scs.length ≠ 0 ∧ istr = 0 ∧ ic = false ∧ scs.isPrefixOf (render.drop i) then
        (acc.reverse ++ List.replicate (render.length - i) HL.comment, ic)
      else if mcs.length ≠ 0 ∧ mce.length ≠ 0 ∧ istr = 0 ∧ ic = true then
        if mce.isPrefixOf (render.drop i) then
          syntaxGo syn render fuel (i + mce.length)
            (List.replicate mce.length HL.mlcomment ++ acc) true istr false
        else
          syntaxGo syn render fuel (i + 1) (HL.mlcomment :: acc) ps istr ic
      else if mcs.length ≠ 0 ∧ mce.length ≠ 0 ∧ istr = 0 ∧ ic = false ∧
          mcs.isPrefixOf (render.drop i) then
        syntaxGo syn render fuel (i + mcs.length)
          (List.replicate mcs.length HL.mlcomment ++ acc) ps istr true
      else if syn.hlStrings ∧ istr ≠ 0 then
        if c = 92 ∧ i + 1 < render.length then
          syntaxGo syn render fuel (i + 2) (HL.str :: HL.str :: acc) ps istr ic
        else
          syntaxGo syn render fuel (i + 1) (HL.str :: acc) true
            (if c = istr then 0 else istr) ic
      else if syn.hlStrings ∧ istr = 0 ∧ (c = 34 ∨ c = 39) then
        syntaxGo syn render fuel (i + 1) (HL.str :: acc) ps c ic
      else if syn.hlNumbers ∧
          ((isdigitB c ∧ (ps ∨ prev_hl = HL.number)) ∨ (c = 46 ∧ prev_hl = HL.number)) then
        syntaxGo syn render fuel (i + 1) (HL.number :: acc) false istr ic
      else
        match (if ps then findKw syn.keywords render i else none) with
        | some (klen, kw2) =>
          syntaxGo syn render fuel (i + klen)
            (List.replicate klen (if kw2 then HL.keyword2 else HL.keyword1) ++ acc)
            false istr ic
        | none =>
          syntaxGo syn render fuel (i + 1) (HL.normal :: acc) (is_separator c) istr ic
    else (acc.reverse, ic)

/-- One-row highlighter: the `editorUpdateSyntax` scan of `render` starting
from the predecessor row's `hl_open_comment`.  Returns the highlight array
and the row's new `hl_open_comment`. -/
def updateSyntaxRow (syn : SynDef) (prevOpen : Bool) (render : List Nat) : List HL × Bool :=
  syntaxGo syn render render.length 0 [] true 0 prevOpen

/-- One text row, from `struct erow`.  `size` and `rsize` are the lengths of
`chars` and `render`; the NUL terminators of the C buffers are not part of
the content lists (see the buffer-level model below). -/
structure Erow where
  idx : Nat
  chars : List Nat
  render : List Nat
  hl : List HL
  hl_open_comment : Bool
deriving DecidableEq, Inhabited

/-- Global editor state, from `struct editorConfig`, plus the function-static
variables of `editorProcessKeypress` (`quit_times`) and of
`editorFindCallback` (`last_match`, `direction`, `saved_hl`,
`saved_hl_line`), which persist across calls exactly like the C statics.
`numrows` is kept as its own field because the C code reads it while it is
briefly out of sync with the row array (inside `editorInsertRow`). -/
structure EState where
  cx : Nat
  cy : Nat
  rx : Nat
  rowoff : Nat
  coloff : Int
  screenrows : Nat
  screencols : Nat
  numrows : Nat
  rows : List Erow
  filename : Option (List Nat)
  statusmsg : String
  dirty : Nat
  syndef : Option SynDef
  quit_times : Nat
  find_last_match : Int
  find_direction : Int
  find_saved_hl_line : Nat
  find_saved_hl : Option (List HL)
deriving Inhabited

/-- `initEditor` plus the initial values of the C statics; the window size
(already minus the two reserved lines) is a parameter. -/
def initState (screenrows screencols : Nat) : EState :=
  { cx := 0, cy := 0, rx := 0, rowoff := 0, coloff := 0
    screenrows := screenrows, screencols := screencols
    numrows := 0, rows := [], filename := none, statusmsg := ""
    dirty := 0, syndef := none
    quit_times := CONFIRM_QUIT_TIMES
    find_last_match := -1, find_direction := 1
    find_saved_hl_line := 0, find_saved_hl := none }

/-- `editorUpdateSyntax` at the row currently stored at position `pos`:
recompute `hl` and `hl_open_comment` from the predecessor's
`hl_open_comment` (looked up through the row's `idx` field, as the C code
does) and, when the open-comment status changed and a next row exists
(`row->idx + 1 < E.numrows`), recurse into the next row.  The C recursion
is structural on the distance to the end of the file only when the `idx`
fields equal the positions; the fuel parameter makes the function total
(callers pass `numrows + 1`, which never runs out in such states). -/
def editorUpdateSyntaxAt : EState → Nat → Nat → EState
  | st, 0, _ => st
  | st, fuel + 1, pos =>
    let row := st.rows.getD pos default
    match st.syndef with
    | none =>
      { st with rows := st.rows.set pos { row with hl := List.replicate row.render.length HL.normal } }
    | some syn =>
      let prevOpen := decide (0 < row.idx) && (st.rows.getD (row.idx - 1) default).hl_open_comment
      let res := updateSyntaxRow syn prevOpen row.render
      let changed := row.hl_open_comment ≠ res.2
      let st1 := { st with rows := st.rows.set pos { row with hl := res.1, hl_open_comment := res.2 } }
      if changed ∧ row.idx + 1 < st.numrows then editorUpdateSyntaxAt st1 fuel (row.idx + 1)
      else st1

/-- `editorUpdateRow` on the row at position `pos`: rebuild `render` by tab
expansion, then re-run the highlighter. -/
def editorUpdateRow (st : EState) (pos : Nat) : EState :=
  let row := st.rows.getD pos default
  let st1 := { st with rows := st.rows.set pos { row with render := renderChars row.chars } }
  editorUpdateSyntaxAt st1 (st1.numrows + 1) pos

/-- `editorInsertRow`: silent no-op outside `[0, numrows]`; shift later rows
(incrementing their `idx`), place the new row with `idx = at`, run
`editorUpdateRow` on it (note: `numrows` is incremented only afterwards, as
in the C code), then bump `numrows` and `dirty`. -/
def editorInsertRow (st : EState) (at_ : Nat) (s : List Nat) : EState :=
  if at_ > st.numrows then st
  else
    let newRow : Erow := { idx := at_, chars := s, render := [], hl := [], hl_open_comment := false }
    let rows1 := st.rows.take at_ ++ newRow :: (st.rows.drop at_).map (fun r => { r with idx := r.idx + 1 })
    let st2 := editorUpdateRow { st with rows := rows1 } at_
    { st2 with numrows := st2.numrows + 1, dirty := st2.dirty + 1 }

/-- `editorDelRow`: silent no-op outside `[0, numrows)`; remove the row,
decrement the `idx` of the shifted rows, decrement `numrows`, bump `dirty`.
No re-highlighting happens here. -/
def editorDelRow (st : EState) (at_ : Nat) : EState :=
  if at_ ≥ st.numrows then st
  else
    let rows1 := st.rows.take at_ ++ (st.rows.drop (at_ + 1)).map (fun r => { r with idx := r.idx - 1 })
    { st with rows := rows1, numrows := st.numrows - 1, dirty := st.dirty + 1 }

/-- `editorRowInsertChar` on the row at position `pos`: clamp `at` into
`[0, size]`, insert the byte, re-derive the views, bump `dirty`. -/
def editorRowInsertChar (st : EState) (pos at_ c : Nat) : EState :=
  let row := st.rows.getD pos default
  let at2 := if at_ > row.chars.length then row.chars.length else at_
  let st1 := { st with rows := st.rows.set pos { row with chars := row.chars.take at2 ++ c :: row.chars.drop at2 } }
  let st2 := editorUpdateRow st1 pos
  { st2 with dirty := st2.dirty + 1 }

/-- `editorRowAppendString` on the row at position `pos`. -/
def editorRowAppendString (st : EState) (pos : Nat) (s : List Nat) : EState :=
  let row := st.rows.getD pos default
  let st1 := { st with rows := st.rows.set pos { row with chars := row.chars ++ s } }
  let st2 := editorUpdateRow st1 pos
  { st2 with dirty := st2.dirty + 1 }

/-- `editorRowDelChar` on the row at position `pos`: silent no-op outside
`[0, size)`. -/
def editorRowDelChar (st : EState) (pos at_ : Nat) : EState :=
  let row := st.rows.getD pos default
  if at_ ≥ row.chars.length then st
  else
    let st1 := { st with rows := st.rows.set pos { row with chars := row.chars.take at_ ++ row.chars.drop (at_ + 1) } }
    let st2 := editorUpdateRow st1 pos
    { st2 with dirty := st2.dirty + 1 }

/-- `editorInsertChar`: append an empty row first when on the virtual tail
row, then insert at the cursor and advance `cx`. -/
def editorInsertChar (st : EState) (c : Nat) : EState :=
  let st1 := if st.cy = st.numrows then editorInsertRow st st.numrows [] else st
  let st2 := editorRowInsertChar st1 st1.cy st1.cx c
  { st2 with cx := st2.cx + 1 }

/-- `editorInsertNewline`: at column 0 insert an empty row before the current
one; otherwise split the current row at `cx` (suffix becomes the next row,
current row truncated and re-derived); cursor to column 0 of the next row. -/
def editorInsertNewline (st : EState) : EState :=
  if st.cx = 0 then
    let st1 := editorInsertRow st st.cy []
    { st1 with cy := st1.cy + 1, cx := 0 }
  else
    let row := st.rows.getD st.cy default
    let st1 := editorInsertRow st (st.cy + 1) (row.chars.drop st.cx)
    let row1 := st1.rows.getD st.cy default
    let st2 := { st1 with rows := st1.rows.set st.cy { row1 with chars := row1.chars.take st.cx } }
    let st3 := editorUpdateRow st2 st.cy
    { st3 with cy := st3.cy + 1, cx := 0 }

/-- `editorDelChar`: no-op on the virtual tail row or at the very start;
delete the byte left of the cursor, or join the current row into the
previous one. -/
def editorDelChar (st : EState) : EState :=
  if st.cy = st.numrows then st
  else if st.cx = 0 ∧ st.cy = 0 then st
  else
    let row := st.rows.getD st.cy default
    if 0 < st.cx then
      let st1 := editorRowDelChar st st.cy (st.cx - 1)
      { st1 with cx := st1.cx - 1 }
    else
      let st1 := { st with cx := (st.rows.getD (st.cy - 1) default).chars.length }
      let st2 := editorRowAppendString st1 (st1.cy - 1) row.chars
      let st3 := editorDelRow st2 st2.cy
      { st3 with cy := st3.cy - 1 }

/-- The `cx` → `rx` accumulation loop of `editorRowCxToRx`. -/
def cxToRxGo : Nat → List Nat → Nat → Nat
  | rx, _, 0 => rx
  | rx, [], _ + 1 => rx
  | rx, c :: cs, j + 1 =>
    cxToRxGo (if c = 9 then rx + (TAB_STOP_LENGTH - 1 - rx % TAB_STOP_LENGTH) + 1 else rx + 1) cs j

/-- `editorRowCxToRx`: render column of cursor index `cx` (tab-stop
arithmetic over the first `cx` bytes of `chars`). -/
def editorRowCxToRx (chars : List Nat) (cx : Nat) : Nat := cxToRxGo 0 chars cx

/-- The scan loop of `editorRowRxToCx`: stop at the first position whose
accumulated render column exceeds `rx`; return the length if never. -/
def rxToCxGo (rx : Nat) : Nat → Nat → List Nat → Nat
  | _, cx, [] => cx
  | cur, cx, c :: cs =>
    let cur1 := if c = 9 then cur + (TAB_STOP_LENGTH - 1 - cur % TAB_STOP_LENGTH) + 1 else cur + 1
    if rx < cur1 then cx else rxToCxGo rx cur1 (cx + 1) cs

/-- `editorRowRxToCx`. -/
def editorRowRxToCx (chars : List Nat) (rx : Nat) : Nat := rxToCxGo rx 0 0 chars

/-- `editorScroll`: recompute `rx`, then reconcile `rowoff` and `coloff`
with the cursor.  Note that both `coloff` assignments use `E.cx` (the raw
cursor column) even though the comparisons use `E.rx`. -/
def editorScroll (st : EState) : EState :=
  let rx := if st.cy < st.numrows then editorRowCxToRx (st.rows.getD st.cy default).chars st.cx else 0
  let ro1 := if st.cy < st.rowoff then st.cy else st.rowoff
  let ro2 := if st.cy ≥ ro1 + st.screenrows then st.cy - st.screenrows + 1 else ro1
  let co1 := if (rx : Int) < st.coloff then (st.cx : Int) else st.coloff
  let co2 := if (rx : Int) ≥ co1 + st.screencols then (st.cx : Int) - st.screencols + 1 else co1
  { st with rx := rx, rowoff := ro2, coloff := co2 }

/-- `editorRefreshScreen`: the frame composition is pure output; the state
effect is the scroll reconciliation. -/
def editorRefreshScreen (st : EState) : EState := editorScroll st

/-- `editorRowsToString`: every row's raw bytes followed by one LF,
including after the last row (iterating `0 ≤ j < numrows` as the C loop). -/
def editorRowsToString (st : EState) : List Nat :=
  ((List.range st.numrows).map (fun j => (st.rows.getD j default).chars ++ [10])).flatten

/-- The `getline` splitting of a byte stream: chunks keep their trailing LF;
a final chunk without LF is returned only if non-empty. -/
def splitKeep : List Nat → List (List Nat)
  | [] => []
  | b :: bs =>
    if b = 10 then [10] :: splitKeep bs
    else
      match splitKeep bs with
      | [] => [[b]]
      | c :: cs => (b :: c) :: cs

/-- The trailing-terminator strip of `editorOpen`: drop trailing LF and CR
bytes. -/
def stripCrLf (l : List Nat) : List Nat :=
  (l.reverse.dropWhile (fun b => b = 10 || b = 13)).reverse

/-- The per-line contents `editorOpen` appends: `getline` chunks with their
trailing LF / CR bytes stripped. -/
def loadRows (bs : List Nat) : List (List Nat) := (splitKeep bs).map stripCrLf

/-- `strstr` on the content of a NUL-terminated buffer: first index at which
`q` is a prefix of the remainder (searching only the bytes before any NUL,
as the C pointer stops at the terminator).  `none` when there is no match. -/
def strstrIdx (hay q : List Nat) : Option Nat :=
  let h := hay.takeWhile (fun b => b ≠ 0)
  (List.range (h.length + 1)).find? (fun k => q.isPrefixOf (h.drop k))

/-- `strrchr(filename, '.')` as used by `editorSelectSyntaxHighlight`: the
suffix of the filename starting at its last dot, when one exists. -/
def lastDotSuffix (fname : List Nat) : Option (List Nat) :=
  if fname.contains 46 then
    some (fname.drop (fname.length - (fname.reverse.takeWhile (fun b => b ≠ 46)).length - 1))
  else none

/-- One filematch test of `editorSelectSyntaxHighlight`: extension equality
when the pattern starts with a dot, substring match otherwise. -/
def synMatches (s : SynDef) (fname : List Nat) : Bool :=
  s.filematch.any fun pat =>
    let is_ext := pat.headD 0 = 46
    (is_ext && (match lastDotSuffix fname with
                | some ext => decide (ext = pat)
                | none => false)) ||
    (!is_ext && (strstrIdx fname pat).isSome)

/-- Re-highlight every row in order (the loop the source runs after
selecting a syntax). -/
def rehighlightAll (st : EState) : EState :=
  (List.range st.numrows).foldl (fun s i => editorUpdateSyntaxAt s (s.numrows + 1) i) st

/-- `editorSelectSyntaxHighlight`: reset the syntax, then take the first
HLDB entry with a matching filename pattern and re-highlight the file. -/
def editorSelectSyntaxHighlight (st : EState) : EState :=
  let st0 := { st with syndef := none }
  match st0.filename with
  | none => st0
  | some fname =>
    match HLDB.find? (fun s => synMatches s fname) with
    | some s => rehighlightAll { st0 with syndef := some s }
    | none => st0

/-- `editorOpen`: set the filename, select the syntax, append one row per
loaded line (trailing LF / CR stripped), and clear `dirty`.  The file
contents are a parameter (the model has no filesystem). -/
def editorOpen (st : EState) (fname : List Nat) (contents : List Nat) : EState :=
  let st1 := editorSelectSyntaxHighlight { st with filename := some fname }
  let st2 := (loadRows contents).foldl (fun s line => editorInsertRow s s.numrows line) st1
  { st2 with dirty := 0 }

/-- `editorSetStatusMessage` (formatting collapsed to the final string; the
80-byte truncation never bites on the messages the model builds). -/
def editorSetStatusMessage (st : EState) (msg : String) : EState := { st with statusmsg := msg }

/-- The status text `editorPrompt` shows: the format with the buffer spliced
into its `%s` slot. -/
def promptMsg (fmt : String) (buf : List Nat) : String :=
  String.intercalate (String.mk (buf.map Char.ofNat)) (fmt.splitOn "%s")

/-- Result of one `editorPrompt` loop iteration. -/
inductive PromptOut where
  | more (st : EState) (buf : List Nat)
  | done (res : Option (List Nat)) (st : EState)

/-- Apply the optional per-keystroke callback (C: `if (callback) callback(buf, c)`). -/
def applyCb (cb : Option (List Nat → Nat → EState → EState)) (buf : List Nat) (c : Nat)
    (st : EState) : EState :=
  match cb with
  | some f => f buf c st
  | none => st

/-- One iteration of the `editorPrompt` loop: show the prompt, refresh
(scroll), then handle the key `c`; the callback always runs last. -/
def promptStep (fmt : String) (cb : Option (List Nat → Nat → EState → EState))
    (st : EState) (buf : List Nat) (c : Nat) : PromptOut :=
  let st1 := editorRefreshScreen (editorSetStatusMessage st (promptMsg fmt buf))
  if c = DEL_KEY ∨ c = 8 ∨ c = BACKSPACE then
    let buf1 := if buf.length ≠ 0 then buf.dropLast else buf
    .more (applyCb cb buf1 c st1) buf1
  else if c = 27 then
    .done none (applyCb cb buf c (editorSetStatusMessage st1 ""))
  else if c = 13 then
    if buf.length ≠ 0 then .done (some buf) (applyCb cb buf c (editorSetStatusMessage st1 ""))
    else .more (applyCb cb buf c st1) buf
  else if !iscntrlB c ∧ c < 128 then
    let buf1 := buf ++ [c]
    .more (applyCb cb buf1 c st1) buf1
  else .more (applyCb cb buf c st1) buf

/-- The `editorPrompt` loop over the pending key list.  The C loop blocks
for more input; when the modelled input is exhausted the prompt reports
"no result" with the keys consumed (this case is outside every claim). -/
def promptLoop (fmt : String) (cb : Option (List Nat → Nat → EState → EState)) :
    EState → List Nat → List Nat → Option (List Nat) × EState × List Nat
  | st, _, [] => (none, st, [])
  | st, buf, c :: rest =>
    match promptStep fmt cb st buf c with
    | .more st1 buf1 => promptLoop fmt cb st1 buf1 rest
    | .done res st1 => (res, st1, rest)

/-- `editorPrompt`: run the loop from an empty buffer. -/
def editorPrompt (fmt : String) (cb : Option (List Nat → Nat → EState → EState))
    (st : EState) (keys : List Nat) : Option (List Nat) × EState × List Nat :=
  promptLoop fmt cb st [] keys

/-- The row-stepping search loop of `editorFindCallback`: advance `current`
by the direction, wrap at both ends, and stop at the first row whose
`render` contains the query; on a hit move the cursor, schedule the scroll,
snapshot the row's highlights and paint the match. -/
def findLoop (st : EState) (query : List Nat) : Int → Nat → EState
  | _, 0 => st
  | current, i + 1 =>
    let cur1 := current + st.find_direction
    let cur2 : Int := if cur1 = -1 then (st.numrows : Int) - 1
      else if cur1 = (st.numrows : Int) then 0 else cur1
    let rowIdx := cur2.toNat
    let row := st.rows.getD rowIdx default
    match strstrIdx row.render query with
    | some off =>
      { st with
        find_last_match := cur2
        cy := rowIdx
        cx := editorRowRxToCx row.chars off
        rowoff := st.numrows
        find_saved_hl_line := rowIdx
        find_saved_hl := some row.hl
        rows := st.rows.set rowIdx { row with
          hl := row.hl.take off ++ List.replicate query.length HL.mtch ++ row.hl.drop (off + query.length) } }
    | none => findLoop st query cur2 i

/-- `editorFindCallback`: restore a held highlight snapshot, update the
search direction / reset state from the key, then search `numrows` rows
starting from `last_match`. -/
def editorFindCallback (query : List Nat) (key : Nat) (st : EState) : EState :=
  let st1 :=
    match st.find_saved_hl with
    | some saved =>
      let l := st.find_saved_hl_line
      let row := st.rows.getD l default
      { st with
        rows := st.rows.set l { row with hl := saved.take row.render.length ++ row.hl.drop row.render.length }
        find_saved_hl := none }
    | none => st
  if key = 13 ∨ key = 27 then { st1 with find_last_match := -1, find_direction := 1 }
  else
    let st2 :=
      if key = ARROW_RIGHT ∨ key = ARROW_DOWN then { st1 with find_direction := 1 }
      else if key = ARROW_LEFT ∨ key = ARROW_UP then { st1 with find_direction := -1 }
      else { st1 with find_last_match := -1, find_direction := 1 }
    let st3 := if st2.find_last_match = -1 then { st2 with find_direction := 1 } else st2
    findLoop st3 query st3.find_last_match st3.numrows

/-- `editorFind`: save the cursor and offsets, run the search prompt, and
restore them when the prompt was cancelled. -/
def editorFind (st : EState) (keys : List Nat) : EState × List Nat :=
  let saved_cx := st.cx
  let saved_cy := st.cy
  let saved_coloff := st.coloff
  let saved_rowoff := st.rowoff
  match editorPrompt "Search: %s (Use ESC/Arrows/Enter)" (some editorFindCallback) st keys with
  | (some _, st1, rest) => (st1, rest)
  | (none, st1, rest) =>
    ({ st1 with cx := saved_cx, cy := saved_cy, coloff := saved_coloff, rowoff := saved_rowoff }, rest)

/-- The write-out part of `editorSave` after a filename exists.  `fs` gives
the outcomes of `open`, `ftruncate` and `write`; on full success `dirty`
clears and the byte count is reported, otherwise the error is posted and
the state is otherwise unchanged. -/
def editorSaveCore (fs : Bool × Bool × Bool) (st : EState) : EState :=
  let len := (editorRowsToString st).length
  if fs.1 && fs.2.1 && fs.2.2 then
    { st with dirty := 0, statusmsg := toString len ++ " bytes written to disk" }
  else editorSetStatusMessage st "Cannot save! I/O error"

/-- `editorSave`: prompt for a filename when there is none (abort posts
"Save aborted" and changes nothing else), re-run syntax selection for a new
name, then write out. -/
def editorSave (fs : Bool × Bool × Bool) (st : EState) (keys : List Nat) : EState × List Nat :=
  match st.filename with
  | none =>
    match editorPrompt "Save as: %s (ESC to cancel)" none st keys with
    | (none, st1, rest) => (editorSetStatusMessage st1 "Save aborted", rest)
    | (some fname, st1, rest) =>
      (editorSaveCore fs (editorSelectSyntaxHighlight { st1 with filename := some fname }), rest)
  | some _ => (editorSaveCore fs st, keys)

/-- `editorMoveCursor`: the arrow-key moves with end-of-line wrapping,
followed by the clamp of `cx` to the new row's length. -/
def editorMoveCursor (st : EState) (key : Nat) : EState :=
  let st1 :=
    if key = ARROW_LEFT then
      if st.cx ≠ 0 then { st with cx := st.cx - 1 }
      else if 0 < st.cy then
        { st with cy := st.cy - 1, cx := (st.rows.getD (st.cy - 1) default).chars.length }
      else st
    else if key = ARROW_RIGHT then
      if st.cy ≥ st.numrows then st
      else
        let n := (st.rows.getD st.cy default).chars.length
        if st.cx < n then { st with cx := st.cx + 1 }
        else if st.cx = n then { st with cy := st.cy + 1, cx := 0 }
        else st
    else if key = ARROW_UP then
      if st.cy ≠ 0 then { st with cy := st.cy - 1 } else st
    else if key = ARROW_DOWN then
      if st.cy < st.numrows then { st with cy := st.cy + 1 } else st
    else st
  let rowlen := if st1.cy ≥ st1.numrows then 0 else (st1.rows.getD st1.cy default).chars.length
  if rowlen < st1.cx then { st1 with cx := rowlen } else st1

/-- The Page-Up / Page-Down block: a screenful of simulated arrow presses. -/
def moveIter : Nat → Nat → EState → EState
  | 0, _, st => st
  | n + 1, key, st => moveIter n key (editorMoveCursor st key)

/-- The warning `Ctrl-Q` posts while changes are unsaved. -/
def quitWarning (n : Nat) : String :=
  "WARNING!!! File has unsaved changes. Press Ctrl-Q " ++ toString n ++ " more times to quit."

/-- Reset of the static quit counter at the end of `editorProcessKeypress`. -/
def resetQT (st : EState) : EState := { st with quit_times := CONFIRM_QUIT_TIMES }

/-- `editorProcessKeypress` on one decoded key `c`.  `rest` is the pending
input (consumed by the modal prompts of save and find); the first component
is `none` exactly when the process calls `exit(0)` (the guarded `Ctrl-Q`).
Every path that does not return early resets `quit_times` to 3. -/
def editorProcessKeypress (fs : Bool × Bool × Bool) (st : EState) (c : Nat)
    (rest : List Nat) : Option EState × List Nat :=
  if c = 13 then (some (resetQT (editorInsertNewline st)), rest)
  else if c = 17 then
    if st.dirty ≠ 0 ∧ 0 < st.quit_times then
      (some { st with statusmsg := quitWarning st.quit_times, quit_times := st.quit_times - 1 }, rest)
    else (none, rest)
  else if c = 19 then
    let r := editorSave fs st rest
    (some (resetQT r.1), r.2)
  else if c = HOME_KEY then (some (resetQT { st with cx := 0 }), rest)
  else if c = END_KEY then
    (some (resetQT (if st.cy < st.numrows then
      { st with cx := (st.rows.getD st.cy default).chars.length } else st)), rest)
  else if c = 6 then
    let r := editorFind st rest
    (some (resetQT r.1), r.2)
  else if c = BACKSPACE ∨ c = 8 ∨ c = DEL_KEY then
    let st1 := if c = DEL_KEY then editorMoveCursor st ARROW_RIGHT else st
    (some (resetQT (editorDelChar st1)), rest)
  else if c = PAGE_UP ∨ c = PAGE_DOWN then
    let cy1 := if c = PAGE_UP then st.rowoff
      else
        let t := st.rowoff + st.screenrows - 1
        if st.numrows < t then st.numrows else t
    let st1 := moveIter st.screenrows (if c = PAGE_UP then ARROW_UP else ARROW_DOWN)
      { st with cy := cy1 }
    (some (resetQT st1), rest)
  else if c = ARROW_UP ∨ c = ARROW_DOWN ∨ c = ARROW_LEFT ∨ c = ARROW_RIGHT then
    (some (resetQT (editorMoveCursor st c)), rest)
  else if c = 12 ∨ c = 27 then (some (resetQT st), rest)
  else (some (resetQT (editorInsertChar st c)), rest)

/-- The main loop of `main`: refresh then process one key, with explicit
fuel (the C loop runs forever; every scenario below needs finitely many
iterations).  The boolean reports whether the editor quit. -/
def editorRun (fs : Bool × Bool × Bool) : Nat → EState → List Nat → EState × Bool
  | 0, st, _ => (st, false)
  | _ + 1, st, [] => (st, false)
  | fuel + 1, st, c :: rest =>
    let st1 := editorRefreshScreen st
    match editorProcessKeypress fs st1 c rest with
    | (none, _) => (st1, true)
    | (some st2, rest1) => editorRun fs fuel st2 rest1

/-- Buffer-level view of `editorRowInsertChar`'s byte manipulation: `buf` is
the NUL-terminated `chars` allocation (`size + 1` bytes), `memmove` shifts
`size - at + 1` bytes (content after `at` plus the terminator) right by one
and the byte is stored at the clamped index. -/
def charsBufInsertChar (buf : List Nat) (size at_ c : Nat) : List Nat :=
  let at2 := if at_ > size then size else at_
  buf.take at2 ++ c :: (buf.drop at2).take (size - at2 + 1)

/-- Buffer-level view of `editorRowAppendString`: keep the first `size`
bytes, copy `s` after them, write a fresh terminator. -/
def charsBufAppendString (buf : List Nat) (size : Nat) (s : List Nat) : List Nat :=
  buf.take size ++ s ++ [0]

/-- Buffer-level view of `editorRowDelChar`: `memmove` shifts `size - at`
bytes (content after `at + 1` plus the terminator) left by one. -/
def charsBufDelChar (buf : List Nat) (size at_ : Nat) : List Nat :=
  buf.take at_ ++ (buf.drop (at_ + 1)).take (size - at_)

/-- Buffer-level view of the `chars` allocation of `editorInsertRow`:
`malloc(len + 1)`, `memcpy`, `chars[len] = 0`. -/
def charsBufNewRow (s : List Nat) : List Nat := s ++ [0]

/-- Buffer-level view of the `render` allocation of `editorUpdateRow`:
the expanded bytes followed by the terminator written at `render[idx]`. -/
def renderBuf (chars : List Nat) : List Nat := renderChars chars ++ [0]

/-- Decidable per-row tab-expansion correctness, tracking the output column:
every tab of `chars` corresponds in `render` to a run of k spaces with
`1 ≤ k ≤ 8` ending exactly at a tab stop (a column that is a multiple of
`TAB_STOP_LENGTH`); every other byte is copied. -/
def tabExpandOk : Nat → List Nat → List Nat → Bool
  | _, [], r => r.isEmpty
  | col, c :: cs, r =>
    if c = 9 then
      let k := TAB_STOP_LENGTH - col % TAB_STOP_LENGTH
      decide (1 ≤ k) && decide (k ≤ TAB_STOP_LENGTH) && decide ((col + k) % TAB_STOP_LENGTH = 0) &&
        decide (r.take k = List.replicate k 32) && decide (k ≤ r.length) &&
        tabExpandOk (col + k) cs (r.drop k)
    else
      match r with
      | [] => false
      | b :: r1 => decide (b = c) && tabExpandOk (col + 1) cs r1

/-- The per-row invariants of spec §3 items 1 and 2: `hl` and `render` have
equal length, `render` holds no tab byte, and `render` is a correct tab
expansion of `chars`. -/
def rowOkB (r : Erow) : Bool :=
  decide (r.hl.length = r.render.length) && r.render.all (fun b => b ≠ 9) &&
    tabExpandOk 0 r.chars r.render

/-- All rows satisfy `rowOkB`. -/
def rowsOkB (rows : List Erow) : Bool := rows.all rowOkB

/-- Every row's `idx` field equals its position (spec §3 invariant 6). -/
def rowsIdxOkB (rows : List Erow) : Bool :=
  (List.range rows.length).all (fun i => decide ((rows.getD i default).idx = i))

/-- Decidable highlight consistency (spec §3 invariant 3): every row's
`hl` / `hl_open_comment` equal the highlighter output against the previous
row's current `hl_open_comment` (row 0 against `false`, as the code
initialises `in_comment`). -/
def syntaxConsistentB (syn : SynDef) (rows : List Erow) : Bool :=
  (List.range rows.length).all fun i =>
    let r := rows.getD i default
    let prevOpen := decide (0 < i) && (rows.getD (i - 1) default).hl_open_comment
    let res := updateSyntaxRow syn prevOpen r.render
    decide (r.hl = res.1) && decide (r.hl_open_comment = res.2)

/-! ### Concrete scenario states -/

/-- Filesystem oracle: open, ftruncate and write all succeed. -/
def fsAllOk : Bool × Bool × Bool := (true, true, true)

/-- A fresh editor on a 10-row, 40-column text area. -/
def baseState : EState := initState 10 40

/-- The C file `t.c` with contents three lines: an open-comment line, a
close-comment line, and `x`. -/
def commentDoc : EState := editorOpen baseState (strBytes "t.c") (strBytes "/*\n*/\nx\n")

/-- A one-row document whose row is a single tab, cursor after the tab
(`cx = 1`, so `rx = 8`), 4 visible columns: the state exercising the
horizontal scroll arithmetic. -/
def tabScrollState : EState :=
  { baseState with
    rows := [{ idx := 0, chars := [9], render := renderChars [9],
               hl := List.replicate 8 HL.normal, hl_open_comment := false }]
    numrows := 1, cx := 1, screencols := 4 }

/-- Keys `a b c Enter d` processed from an empty document (spec §8
scenario 1). -/
def typingRun : EState × Bool := editorRun fsAllOk 5 baseState [97, 98, 99, 13, 100]

/-- The document with rows `abc`, `abX`, `yabZ` (no C syntax), cursor moved
one row down before the search starts. -/
def searchDoc : EState :=
  editorMoveCursor (editorOpen baseState (strBytes "t.txt") (strBytes "abc\nabX\nyabZ\n")) ARROW_DOWN

/-- The search prompt format string. -/
def searchFmt : String := "Search: %s (Use ESC/Arrows/Enter)"

/-- The states after each `editorPrompt` iteration (for observing the cursor
between keystrokes of a prompt session). -/
def promptTrace (fmt : String) (cb : Option (List Nat → Nat → EState → EState)) :
    EState → List Nat → List Nat → List EState
  | _, _, [] => []
  | st, buf, c :: rest =>
    match promptStep fmt cb st buf c with
    | .more s1 b1 => s1 :: promptTrace fmt cb s1 b1 rest
    | .done _ s1 => [s1]

/-- `dirty` comes from the quit-guard scenario: the loaded C file marked
modified. -/
def dirtyDoc : EState := { commentDoc with dirty := 5 }

/-- Propositional version of `rowsIdxOkB`. -/
def RowsIdxOk (rows : List Erow) : Prop :=
  ∀ i, i < rows.length → (rows.getD i default).idx = i

/-- Per-position `hl` / `render` length agreement. -/
def HlLenOk (rows : List Erow) (j : Nat) : Prop :=
  ((rows.getD j default).hl).length = ((rows.getD j default).render).length

/-- Propositional per-row highlight consistency (spec §3 invariant 3). -/
def RowConsistentAt (syn : SynDef) (rows : List Erow) (i : Nat) : Prop :=
  (rows.getD i default).hl =
    (updateSyntaxRow syn (decide (0 < i) && (rows.getD (i - 1) default).hl_open_comment)
      (rows.getD i default).render).1 ∧
  (rows.getD i default).hl_open_comment =
    (updateSyntaxRow syn (decide (0 < i) && (rows.getD (i - 1) default).hl_open_comment)
      (rows.getD i default).render).2

/-- A loaded row is "good": it contains no LF and does not end in LF or CR. -/
def goodRowB (r : List Nat) : Bool :=
  r.all (fun b => b ≠ 10) &&
    (match r.getLast? with
     | some x => !(x = 10 || x = 13)
     | none => true)

/-! ### List helper lemmas -/

theorem getD_set_self {α : Type} (l : List α) (n : Nat) (a d : α) (h : n < l.length) :
    (l.set n a).getD n d = a := by
  induction l generalizing n with
  | nil => simp at h
  | cons x xs ih =>
    cases n with
    | zero => rfl
    | succ m => simpa using ih m (by simpa using h)

theorem getD_set_other {α : Type} (l : List α) (m n : Nat) (a d : α) (h : m ≠ n) :
    (l.set n a).getD m d = l.getD m d := by
  induction l generalizing m n with
  | nil => simp
  | cons x xs ih =>
    cases n with
    | zero =>
      cases m with
      | zero => exact absurd rfl h
      | succ k => rfl
    | succ n1 =>
      cases m with
      | zero => rfl
      | succ m1 => simpa using ih m1 n1 (by omega)

theorem map_set {α β : Type} (f : α → β) (l : List α) (n : Nat) (a : α) :
    (l.set n a).map f = (l.map f).set n (f a) := by
  induction l generalizing n with
  | nil => simp
  | cons x xs ih =>
    cases n with
    | zero => simp
    | succ m => simpa using ih m

theorem getD_map {α β : Type} (f : α → β) (l : List α) (n : Nat) (d : α) :
    (l.map f).getD n (f d) = f (l.getD n d) := by
  induction l generalizing n with
  | nil => simp
  | cons x xs ih =>
    cases n with
    | zero => simp
    | succ m => simpa using ih m

theorem set_getD_same {α : Type} (l : List α) (n : Nat) (d : α) :
    l.set n (l.getD n d) = l := by
  induction l generalizing n with
  | nil => simp
  | cons x xs ih =>
    cases n with
    | zero => rfl
    | succ m => simpa using ih m

theorem range_map_getD {α : Type} (l : List α) (d : α) :
    (List.range l.length).map (fun j => l.getD j d) = l := by
  induction l with
  | nil => simp
  | cons x xs ih =>
    simp only [List.length_cons, List.range_succ_eq_map, List.map_cons, List.map_map]
    refine congrArg (x :: ·) ?_
    have h2 : ((fun j => (x :: xs).getD j d) ∘ Nat.succ) = (fun j => xs.getD j d) := by
      funext j; rfl
    rw [h2, ih]

theorem map_set_eq_of_getD {α β : Type} (f : α → β) (l : List α) (n : Nat) (a d : α)
    (h : f a = f (l.getD n d)) : (l.set n a).map f = l.map f := by
  rw [map_set, h, ← getD_map f l n d, set_getD_same]

/-! ### Frame lemmas for the highlight cascade -/

theorem updSynAt_eq_setRows : ∀ (fuel : Nat) (st : EState) (pos : Nat),
    editorUpdateSyntaxAt st fuel pos = { st with rows := (editorUpdateSyntaxAt st fuel pos).rows } := by
  intro fuel
  induction fuel with
  | zero => intro st pos; rfl
  | succ n ih =>
    intro st pos
    simp only [editorUpdateSyntaxAt]
    cases h : st.syndef with
    | none => rfl
    | some syn =>
      simp only
      split
      · rw [ih]
      · rfl

theorem updSynAt_dirty (fuel : Nat) (st : EState) (pos : Nat) :
    (editorUpdateSyntaxAt st fuel pos).dirty = st.dirty := by
  conv_lhs => rw [updSynAt_eq_setRows]

theorem updSynAt_numrows (fuel : Nat) (st : EState) (pos : Nat) :
    (editorUpdateSyntaxAt st fuel pos).numrows = st.numrows := by
  conv_lhs => rw [updSynAt_eq_setRows]

theorem updSynAt_syndef (fuel : Nat) (st : EState) (pos : Nat) :
    (editorUpdateSyntaxAt st fuel pos).syndef = st.syndef := by
  conv_lhs => rw [updSynAt_eq_setRows]

theorem updSynAt_map_chars : ∀ (fuel : Nat) (st : EState) (pos : Nat),
    (editorUpdateSyntaxAt st fuel pos).rows.map (fun r => r.chars) =
      st.rows.map (fun r => r.chars) := by
  intro fuel
  induction fuel with
  | zero => intro st pos; rfl
  | succ n ih =>
    intro st pos
    simp only [editorUpdateSyntaxAt]
    cases h : st.syndef with
    | none => exact map_set_eq_of_getD _ _ _ _ default rfl
    | some syn =>
      simp only
      split
      · rw [ih]; exact map_set_eq_of_getD _ _ _ _ default rfl
      · exact map_set_eq_of_getD _ _ _ _ default rfl

theorem updSynAt_map_render : ∀ (fuel : Nat) (st : EState) (pos : Nat),
    (editorUpdateSyntaxAt st fuel pos).rows.map (fun r => r.render) =
      st.rows.map (fun r => r.render) := by
  intro fuel
  induction fuel with
  | zero => intro st pos; rfl
  | succ n ih =>
    intro st pos
    simp only [editorUpdateSyntaxAt]
    cases h : st.syndef with
    | none => exact map_set_eq_of_getD _ _ _ _ default rfl
    | some syn =>
      simp only
      split
      · rw [ih]; exact map_set_eq_of_getD _ _ _ _ default rfl
      · exact map_set_eq_of_getD _ _ _ _ default rfl

theorem updSynAt_map_idx : ∀ (fuel : Nat) (st : EState) (pos : Nat),
    (editorUpdateSyntaxAt st fuel pos).rows.map (fun r => r.idx) =
      st.rows.map (fun r => r.idx) := by
  intro fuel
  induction fuel with
  | zero => intro st pos; rfl
  | succ n ih =>
    intro st pos
    simp only [editorUpdateSyntaxAt]
    cases h : st.syndef with
    | none => exact map_set_eq_of_getD _ _ _ _ default rfl
    | some syn =>
      simp only
      split
      · rw [ih]; exact map_set_eq_of_getD _ _ _ _ default rfl
      · exact map_set_eq_of_getD _ _ _ _ default rfl

theorem updSynAt_rows_length (fuel : Nat) (st : EState) (pos : Nat) :
    (editorUpdateSyntaxAt st fuel pos).rows.length = st.rows.length := by
  have h := congrArg List.length (updSynAt_map_chars fuel st pos)
  simpa using h

/-! ### Render-column arithmetic (claim C3) -/

theorem rxStep_gt (cur c : Nat) :
    cur < (if c = 9 then cur + (TAB_STOP_LENGTH - 1 - cur % TAB_STOP_LENGTH) + 1 else cur + 1) := by
  split <;> omega

theorem cxToRxGo_ge : ∀ (cs : List Nat) (n cur : Nat), cur ≤ cxToRxGo cur cs n := by
  intro cs
  induction cs with
  | nil => intro n cur; cases n <;> simp [cxToRxGo]
  | cons c cs ih =>
    intro n cur
    cases n with
    | zero => simp [cxToRxGo]
    | succ m =>
      calc cur ≤ (if c = 9 then cur + (TAB_STOP_LENGTH - 1 - cur % TAB_STOP_LENGTH) + 1 else cur + 1) :=
            Nat.le_of_lt (rxStep_gt cur c)
        _ ≤ cxToRxGo _ cs m := ih m _

theorem rxToCx_cxToRx_go : ∀ (cs : List Nat) (cx cur base : Nat), cx ≤ cs.length →
    rxToCxGo (cxToRxGo cur cs cx) cur base cs = base + cx := by
  intro cs
  induction cs with
  | nil =>
    intro cx cur base h
    simp only [List.length_nil, Nat.le_zero] at h
    subst h
    simp [cxToRxGo, rxToCxGo]
  | cons c cs ih =>
    intro cx cur base h
    cases cx with
    | zero =>
      simp only [cxToRxGo, rxToCxGo]
      rw [if_pos (rxStep_gt cur c)]
      omega
    | succ m =>
      simp only [cxToRxGo, rxToCxGo]
      rw [if_neg (by exact Nat.not_lt.mpr (cxToRxGo_ge cs m _))]
      rw [ih m _ (base + 1) (by simpa using h)]
      omega

theorem rxToCx_past_end_go : ∀ (cs : List Nat) (cur base rx : Nat),
    cxToRxGo cur cs cs.length ≤ rx → rxToCxGo rx cur base cs = base + cs.length := by
  intro cs
  induction cs with
  | nil => intro cur base rx _; simp [rxToCxGo]
  | cons c cs ih =>
    intro cur base rx h
    simp only [List.length_cons, cxToRxGo] at h
    simp only [rxToCxGo]
    rw [if_neg (by exact Nat.not_lt.mpr (le_trans (cxToRxGo_ge cs cs.length _) h))]
    rw [ih _ (base + 1) rx h]
    simp [List.length_cons]
    omega

/-! ### Claim C1 (counterexample part) -/

/-- Claim C1, counterexample: the stated invariant — after every mutating
operation, every row `i > 0` has the highlight array computed against row
`i-1`'s current `open_comment` — fails after `editorDelRow`.  Loading
`t.c` with rows `/*`, `*/`, `x` gives a consistent document; deleting row 1
leaves row `x` highlighted as `Normal` (computed when its predecessor had
`open_comment = false`) although its predecessor is now the unclosed `/*`
row with `open_comment = true`, and no re-highlighting happens. -/
theorem editorDelRow_breaks_highlight_consistency :
    commentDoc.syndef = some cSyntax ∧
    syntaxConsistentB cSyntax commentDoc.rows = true ∧
    rowsIdxOkB commentDoc.rows = true ∧
    syntaxConsistentB cSyntax (editorDelRow commentDoc 1).rows = false ∧
    ((editorDelRow commentDoc 1).rows.getD 0 default).hl_open_comment = true ∧
    ((editorDelRow commentDoc 1).rows.getD 1 default).hl ≠
      (updateSyntaxRow cSyntax
        ((editorDelRow commentDoc 1).rows.getD 0 default).hl_open_comment
        ((editorDelRow commentDoc 1).rows.getD 1 default).render).1 := by
  decide

/-! ### Claim C6 -/

/-- Claim C6, counterexample: scroll reconciliation is not performed in
render coordinates.  In `tabScrollState` the reconciled `rx` is 8, past the
4 visible columns with `col_off = 0`, yet `col_off` is set to
`cx - visible_cols + 1 = -2`, not `rx - visible_cols + 1 = 5`. -/
theorem editorScroll_not_render_coordinate :
    (editorScroll tabScrollState).rx = 8 ∧
    ((editorScroll tabScrollState).rx : Int) ≥ tabScrollState.coloff + tabScrollState.screencols ∧
    (editorScroll tabScrollState).coloff ≠
      ((editorScroll tabScrollState).rx : Int) - tabScrollState.screencols + 1 ∧
    (editorScroll tabScrollState).coloff = -2 := by
  decide

/-- Claim C6, amended: the comparisons use `rx` but both assignments use the
raw column `cx` (as the source and spec §9 note): on left overshoot
(`rx < col_off`, when the right test against the updated offset does not
also fire) `col_off` becomes `cx`; on right overshoot
(`col_off ≤ rx` and `rx ≥ col_off + visible_cols`) it becomes
`cx - visible_cols + 1`; otherwise it is unchanged. -/
theorem editorScroll_coloff_characterization (st : EState) :
    (((editorScroll st).rx : Int) < st.coloff →
      ¬(((editorScroll st).rx : Int) ≥ (st.cx : Int) + st.screencols) →
      (editorScroll st).coloff = (st.cx : Int)) ∧
    (st.coloff ≤ ((editorScroll st).rx : Int) →
      ((editorScroll st).rx : Int) ≥ st.coloff + st.screencols →
      (editorScroll st).coloff = (st.cx : Int) - st.screencols + 1) ∧
    (st.coloff ≤ ((editorScroll st).rx : Int) →
      ((editorScroll st).rx : Int) < st.coloff + st.screencols →
      (editorScroll st).coloff = st.coloff) := by
  refine ⟨?_, ?_, ?_⟩ <;>
    · intro h1 h2
      simp only [editorScroll] at h1 h2 ⊢
      split_ifs at h1 h2 ⊢ <;> omega

/-- Witness for `editorScroll_coloff_characterization` at the concrete
right-overshoot state. -/
theorem editorScroll_coloff_characterization_witness :
    tabScrollState.coloff ≤ ((editorScroll tabScrollState).rx : Int) ∧
    ((editorScroll tabScrollState).rx : Int) ≥ tabScrollState.coloff + tabScrollState.screencols ∧
    (editorScroll tabScrollState).coloff = (tabScrollState.cx : Int) - tabScrollState.screencols + 1 :=
  ⟨by decide, by decide,
    (editorScroll_coloff_characterization tabScrollState).2.1 (by decide) (by decide)⟩

/-! ### Claim C7 -/

/-- Claim C7, counterexample: typing `a b c Enter d` from an empty document
does produce rows `abc` / `d` without quitting, but leaves `dirty = 6`, not
4 — typing `a` on the virtual tail row first inserts an empty row (one
increment) and then inserts the byte (another), and the `Enter` split and
`d` add one increment each on top of the three for `a b c`. -/
theorem typing_scenario_dirty_ne_four :
    typingRun.1.rows.map (fun r => r.chars) = [strBytes "abc", strBytes "d"] ∧
    typingRun.2 = false ∧
    typingRun.1.dirty ≠ 4 := by
  decide

/-- Claim C7, amended: the key sequence `a b c Enter d` from an empty
document yields exactly two rows with raw bytes `abc` and `d`, cursor at
`cy = 1`, `cx = 1`, no termination, and `dirty = 6`. -/
theorem typing_scenario_final_state :
    typingRun.1.rows.map (fun r => r.chars) = [strBytes "abc", strBytes "d"] ∧
    typingRun.1.numrows = 2 ∧
    typingRun.1.cy = 1 ∧
    typingRun.1.cx = 1 ∧
    typingRun.1.dirty = 6 ∧
    typingRun.2 = false := by
  decide

/-! ### Claim C9 -/

/-- Claim C9: searching `ab` in the document `abc` / `abX` / `yabZ` (cursor
saved at row 1): after typing `a` then `b` the cursor is at row 0 col 0;
three `ArrowDown` presses move it to row 1 col 0, row 2 col 1, and wrapping
back to row 0 col 0; `Escape` then restores the saved cursor position and
scroll offsets. -/
theorem search_scenario :
    (promptTrace searchFmt (some editorFindCallback) searchDoc []
        [97, 98, ARROW_DOWN, ARROW_DOWN, ARROW_DOWN]).map (fun s => (s.cy, s.cx)) =
      [(0, 0), (0, 0), (1, 0), (2, 1), (0, 0)] ∧
    ((editorFind searchDoc [97, 98, ARROW_DOWN, ARROW_DOWN, ARROW_DOWN, 27]).1.cx = searchDoc.cx ∧
     (editorFind searchDoc [97, 98, ARROW_DOWN, ARROW_DOWN, ARROW_DOWN, 27]).1.cy = searchDoc.cy ∧
     (editorFind searchDoc [97, 98, ARROW_DOWN, ARROW_DOWN, ARROW_DOWN, 27]).1.coloff = searchDoc.coloff ∧
     (editorFind searchDoc [97, 98, ARROW_DOWN, ARROW_DOWN, ARROW_DOWN, 27]).1.rowoff = searchDoc.rowoff) ∧
    searchDoc.cy = 1 ∧ searchDoc.cx = 0 ∧ searchDoc.coloff = 0 ∧ searchDoc.rowoff = 0 := by
  decide

/-- Claim C3: for any row and any cursor index `0 ≤ cx ≤ len(raw)`,
converting to a render column and back is the identity, and
`editorRowRxToCx` returns `len(raw)` for any `rx` at or past the row's
last accumulated render column. -/
theorem cxToRx_rxToCx_roundtrip (chars : List Nat) (cx : Nat) (h : cx ≤ chars.length) :
    editorRowRxToCx chars (editorRowCxToRx chars cx) = cx ∧
    ∀ rx, editorRowCxToRx chars chars.length ≤ rx → editorRowRxToCx chars rx = chars.length := by
  constructor
  · simpa using rxToCx_cxToRx_go chars cx 0 0 h
  · intro rx hrx
    simpa using rxToCx_past_end_go chars 0 0 rx hrx

/-- Witness for `cxToRx_rxToCx_roundtrip` on the row `a TAB b` at `cx = 2`
(render column 8, as in spec §8 scenario 4). -/
theorem cxToRx_rxToCx_roundtrip_witness :
    2 ≤ (strBytes "a\tb").length ∧
    editorRowCxToRx (strBytes "a\tb") 2 = 8 ∧
    editorRowRxToCx (strBytes "a\tb") (editorRowCxToRx (strBytes "a\tb") 2) = 2 ∧
    editorRowRxToCx (strBytes "a\tb") 11 = 3 :=
  ⟨by decide, by decide,
    (cxToRx_rxToCx_roundtrip (strBytes "a\tb") 2 (by decide)).1,
    (cxToRx_rxToCx_roundtrip (strBytes "a\tb") 2 (by decide)).2 11 (by decide)⟩

/-! ### Claim C5 -/

/-- Any key other than `Ctrl-Q` is processed without exiting and leaves the
quit counter reset to `CONFIRM_QUIT_TIMES`. -/
theorem quit_guard_reset (fs : Bool × Bool × Bool) (st : EState) (c : Nat) (rest : List Nat)
    (hc : c ≠ 17) :
    (editorProcessKeypress fs st c rest).1.map (fun s => s.quit_times) =
      some CONFIRM_QUIT_TIMES := by
  unfold editorProcessKeypress
  by_cases h1 : c = 13
  · simp [h1, resetQT]
  rw [if_neg h1]
  rw [if_neg hc]
  by_cases h3 : c = 19
  · simp [h3, resetQT]
  rw [if_neg h3]
  by_cases h4 : c = HOME_KEY
  · simp [h4, resetQT]
  rw [if_neg h4]
  by_cases h5 : c = END_KEY
  · simp [h5, resetQT]
  rw [if_neg h5]
  by_cases h6 : c = 6
  · simp [h6, resetQT]
  rw [if_neg h6]
  by_cases h7 : c = BACKSPACE ∨ c = 8 ∨ c = DEL_KEY
  · simp [h7, resetQT]
  rw [if_neg h7]
  by_cases h8 : c = PAGE_UP ∨ c = PAGE_DOWN
  · simp [h8, resetQT]
  rw [if_neg h8]
  by_cases h9 : c = ARROW_UP ∨ c = ARROW_DOWN ∨ c = ARROW_LEFT ∨ c = ARROW_RIGHT
  · simp [h9, resetQT]
  rw [if_neg h9]
  by_cases h10 : c = 12 ∨ c = 27
  · simp [h10, resetQT]
  rw [if_neg h10]
  rfl

/-- A guarded `Ctrl-Q` (dirty, counter positive) posts the warning and
decrements the counter, changing nothing else. -/
theorem quitWarn_step (fs : Bool × Bool × Bool) (st : EState) (rest : List Nat)
    (hd : st.dirty ≠ 0) (hq : 0 < st.quit_times) :
    editorProcessKeypress fs st 17 rest =
      (some { st with statusmsg := quitWarning st.quit_times, quit_times := st.quit_times - 1 },
       rest) := by
  unfold editorProcessKeypress
  rw [if_neg (by decide), if_pos rfl, if_pos ⟨hd, hq⟩]

/-- An unguarded `Ctrl-Q` (clean, or counter exhausted) exits. -/
theorem quitExit_step (fs : Bool × Bool × Bool) (st : EState) (rest : List Nat)
    (h : ¬(st.dirty ≠ 0 ∧ 0 < st.quit_times)) :
    editorProcessKeypress fs st 17 rest = (none, rest) := by
  unfold editorProcessKeypress
  rw [if_neg (by decide), if_pos rfl, if_neg h]

/-- Claim C5: from any state with `dirty ≠ 0` and the per-session counter at
its initialised value 3, the first three consecutive `Ctrl-Q` presses do not
terminate (each posts the warning and decrements the counter, leaving the
document untouched), the fourth terminates; any other key is processed
without terminating and resets the counter to 3; and with `dirty = 0` a
single `Ctrl-Q` terminates. -/
theorem quit_guard_behavior :
    (∀ (fs : Bool × Bool × Bool) (st : EState) (rest : List Nat),
      st.dirty ≠ 0 → st.quit_times = CONFIRM_QUIT_TIMES →
      ∃ st1 st2 st3 : EState,
        editorProcessKeypress fs st 17 rest = (some st1, rest) ∧
        st1.statusmsg = quitWarning 3 ∧ st1.quit_times = 2 ∧
        st1.dirty = st.dirty ∧ st1.rows = st.rows ∧
        editorProcessKeypress fs st1 17 rest = (some st2, rest) ∧
        st2.statusmsg = quitWarning 2 ∧ st2.quit_times = 1 ∧
        st2.dirty = st.dirty ∧ st2.rows = st.rows ∧
        editorProcessKeypress fs st2 17 rest = (some st3, rest) ∧
        st3.statusmsg = quitWarning 1 ∧ st3.quit_times = 0 ∧
        st3.dirty = st.dirty ∧ st3.rows = st.rows ∧
        (editorProcessKeypress fs st3 17 rest).1 = none ∧
        (∀ c rest2, c ≠ 17 → (editorProcessKeypress fs st3 c rest2).1 ≠ none)) ∧
    (∀ (fs : Bool × Bool × Bool) (st : EState) (c : Nat) (rest : List Nat), c ≠ 17 →
      (editorProcessKeypress fs st c rest).1.map (fun s => s.quit_times) =
        some CONFIRM_QUIT_TIMES) ∧
    (∀ (fs : Bool × Bool × Bool) (st : EState) (rest : List Nat),
      st.dirty = 0 → (editorProcessKeypress fs st 17 rest).1 = none) := by
  refine ⟨?_, ?_, ?_⟩
  · intro fs st rest hd hq
    refine ⟨{ st with statusmsg := quitWarning 3, quit_times := 2 },
            { st with statusmsg := quitWarning 2, quit_times := 1 },
            { st with statusmsg := quitWarning 1, quit_times := 0 },
            ?_, rfl, rfl, rfl, rfl, ?_, rfl, rfl, rfl, rfl, ?_, rfl, rfl, rfl, rfl, ?_, ?_⟩
    · rw [quitWarn_step fs st rest hd (by rw [hq]; decide), hq]
      rfl
    · exact quitWarn_step fs { st with statusmsg := quitWarning 3, quit_times := 2 } rest hd (by simp)
    · exact quitWarn_step fs { st with statusmsg := quitWarning 2, quit_times := 1 } rest hd (by simp)
    · exact congrArg Prod.fst
        (quitExit_step fs { st with statusmsg := quitWarning 1, quit_times := 0 } rest (by simp))
    · intro c rest2 hc hnone
      have h5 := quit_guard_reset fs
        { st with statusmsg := quitWarning 1, quit_times := 0 } c rest2 hc
      rw [hnone] at h5
      simp at h5
  · exact quit_guard_reset
  · intro fs st rest hd
    exact congrArg Prod.fst (quitExit_step fs st rest (by simp [hd]))

/-- Witness for `quit_guard_behavior` on the modified C document (and, for
the clean-document part, the freshly opened one). -/
theorem quit_guard_behavior_witness :
    dirtyDoc.dirty ≠ 0 ∧ dirtyDoc.quit_times = CONFIRM_QUIT_TIMES ∧
    (∃ st1 st2 st3 : EState,
      editorProcessKeypress fsAllOk dirtyDoc 17 [] = (some st1, []) ∧
      st1.statusmsg = quitWarning 3 ∧ st1.quit_times = 2 ∧
      st1.dirty = dirtyDoc.dirty ∧ st1.rows = dirtyDoc.rows ∧
      editorProcessKeypress fsAllOk st1 17 [] = (some st2, []) ∧
      st2.statusmsg = quitWarning 2 ∧ st2.quit_times = 1 ∧
      st2.dirty = dirtyDoc.dirty ∧ st2.rows = dirtyDoc.rows ∧
      editorProcessKeypress fsAllOk st2 17 [] = (some st3, []) ∧
      st3.statusmsg = quitWarning 1 ∧ st3.quit_times = 0 ∧
      st3.dirty = dirtyDoc.dirty ∧ st3.rows = dirtyDoc.rows ∧
      (editorProcessKeypress fsAllOk st3 17 []).1 = none ∧
      (∀ c rest2, c ≠ 17 → (editorProcessKeypress fsAllOk st3 c rest2).1 ≠ none)) ∧
    commentDoc.dirty = 0 ∧ (editorProcessKeypress fsAllOk commentDoc 17 []).1 = none :=
  ⟨by decide, by decide,
   quit_guard_behavior.1 fsAllOk dirtyDoc [] (by decide) (by decide),
   by decide, quit_guard_behavior.2.2 fsAllOk commentDoc [] (by decide)⟩

/-! ### Claim C4 support -/

theorem isPrefixOf_length_le {l l' : List Nat} (h : l.isPrefixOf l' = true) :
    l.length ≤ l'.length := by
  rw [List.isPrefixOf_iff_prefix] at h
  exact h.length_le

theorem findKw_bound {kws : List (List Nat)} {render : List Nat} {i klen : Nat} {kw2 : Bool}
    (hi : i ≤ render.length) (h : findKw kws render i = some (klen, kw2)) :
    i + klen ≤ render.length := by
  unfold findKw at h
  obtain ⟨kw, hmem, hf⟩ := List.exists_of_findSome?_eq_some h
  simp only at hf
  split at hf
  · split at hf
    · rename_i hcond
      obtain ⟨h1, -⟩ := (Bool.and_eq_true _ _).mp hcond
      have hlen := isPrefixOf_length_le h1
      rw [List.length_take, List.length_drop] at hlen
      injection hf with hf1
      have h2 := congrArg Prod.fst hf1
      simp only at h2
      omega
    · exact absurd hf (by simp)
  · split at hf
    · rename_i hcond
      obtain ⟨h1, -⟩ := (Bool.and_eq_true _ _).mp hcond
      have hlen := isPrefixOf_length_le h1
      rw [List.length_take, List.length_drop] at hlen
      injection hf with hf1
      have h2 := congrArg Prod.fst hf1
      simp only at h2
      omega
    · exact absurd hf (by simp)

theorem syntaxGo_fst_length (syn : SynDef) (render : List Nat) :
    ∀ (fuel i : Nat) (acc : List HL) (ps : Bool) (istr : Nat) (ic : Bool),
      i ≤ render.length → acc.length = i →
      ((syntaxGo syn render fuel i acc ps istr ic).1).length = render.length := by
  intro fuel
  induction fuel with
  | zero =>
    intro i acc ps istr ic hi ha
    simp only [syntaxGo, List.length_append, List.length_reverse, List.length_replicate, ha]
    omega
  | succ n ih =>
    intro i acc ps istr ic hi ha
    simp only [syntaxGo]
    split
    · -- i < render.length
      rename_i hlt
      split
      · -- single-line comment break
        simp only [List.length_append, List.length_reverse, List.length_replicate, ha]
        omega
      · split
        · -- in multi-line comment
          split
          · -- at the closing delimiter
            rename_i hpre
            have hb := isPrefixOf_length_le hpre
            rw [List.length_drop] at hb
            apply ih
            · omega
            · simp only [List.length_append, List.length_replicate, ha]; omega
          · apply ih
            · omega
            · simp only [List.length_cons, ha]
        · split
          · -- at the opening delimiter
            rename_i hcond
            have hb := isPrefixOf_length_le hcond.2.2.2.2
            rw [List.length_drop] at hb
            apply ih
            · omega
            · simp only [List.length_append, List.length_replicate, ha]; omega
          · split
            · -- inside a string
              split
              · apply ih
                · omega
                · simp only [List.length_cons, ha]
              · apply ih
                · omega
                · simp only [List.length_cons, ha]
            · split
              · -- string opening quote
                apply ih
                · omega
                · simp only [List.length_cons, ha]
              · split
                · -- number
                  apply ih
                  · omega
                  · simp only [List.length_cons, ha]
                · -- keyword match or default
                  split
                  · rename_i klen kw2 hkw
                    have hb : i + klen ≤ render.length := by
                      split at hkw
                      · exact findKw_bound hi hkw
                      · exact absurd hkw (by simp)
                    apply ih
                    · omega
                    · simp only [List.length_append, List.length_replicate, ha]; omega
                  · apply ih
                    · omega
                    · simp only [List.length_cons, ha]
    · -- i ≥ render.length
      rename_i hge
      simp only [List.length_reverse, ha]
      omega

theorem updateSyntaxRow_fst_length (syn : SynDef) (prevOpen : Bool) (render : List Nat) :
    ((updateSyntaxRow syn prevOpen render).1).length = render.length :=
  syntaxGo_fst_length syn render render.length 0 [] true 0 prevOpen (Nat.zero_le _) rfl

theorem renderGo_tabOk : ∀ (chars : List Nat) (col : Nat),
    tabExpandOk col chars (renderGo col chars) = true := by
  intro chars
  induction chars with
  | nil => intro col; rfl
  | cons c cs ih =>
    intro col
    by_cases h : c = 9
    · subst h
      have hmod : col % 8 < 8 := Nat.mod_lt _ (by omega)
      have h1 : (List.replicate (8 - col % 8) (32 : Nat)).length = 8 - col % 8 :=
        List.length_replicate _ _
      simp only [renderGo, if_pos rfl, if_true, tabExpandOk, TAB_STOP_LENGTH, Bool.and_eq_true,
        decide_eq_true_eq]
      refine ⟨⟨⟨⟨⟨by omega, by omega⟩, by omega⟩, ?_⟩, ?_⟩, ?_⟩
      · rw [List.take_left' h1]
      · simp only [List.length_append, h1]; omega
      · rw [List.drop_left' h1]
        exact ih _
    · simp only [renderGo, if_neg h, tabExpandOk, if_neg h, Bool.and_eq_true, decide_eq_true_eq]
      exact ⟨trivial, ih _⟩

theorem renderGo_noTab : ∀ (chars : List Nat) (col : Nat),
    (renderGo col chars).all (fun b => b ≠ 9) = true := by
  intro chars
  induction chars with
  | nil => intro col; rfl
  | cons c cs ih =>
    intro col
    by_cases h : c = 9
    · subst h
      simp only [renderGo, if_pos rfl, if_true]
      rw [List.all_append, Bool.and_eq_true]
      exact ⟨by simp [List.all_eq_true], ih _⟩
    · simp only [renderGo, if_neg h]
      rw [List.all_cons, Bool.and_eq_true]
      exact ⟨by simp [h], ih _⟩

theorem getD_append_left {α : Type} (l1 l2 : List α) (j : Nat) (d : α) (h : j < l1.length) :
    (l1 ++ l2).getD j d = l1.getD j d := by
  induction l1 generalizing j with
  | nil => simp at h
  | cons x xs ih =>
    cases j with
    | zero => rfl
    | succ m => simpa using ih m (by simpa using h)

theorem getD_append_right {α : Type} (l1 l2 : List α) (j : Nat) (d : α) (h : l1.length ≤ j) :
    (l1 ++ l2).getD j d = l2.getD (j - l1.length) d := by
  induction l1 generalizing j with
  | nil => simp
  | cons x xs ih =>
    cases j with
    | zero => simp at h
    | succ m =>
      simp only [List.cons_append, List.length_cons]
      have := ih m (by simpa using h)
      simpa [Nat.succ_sub_succ] using this

theorem getD_take {α : Type} (l : List α) (n j : Nat) (d : α) (h : j < n) :
    (l.take n).getD j d = l.getD j d := by
  induction l generalizing n j with
  | nil => simp
  | cons x xs ih =>
    cases n with
    | zero => omega
    | succ m =>
      cases j with
      | zero => rfl
      | succ k => simpa using ih m k (by omega)

theorem getD_drop {α : Type} (l : List α) (n k : Nat) (d : α) :
    (l.drop n).getD k d = l.getD (n + k) d := by
  induction l generalizing n with
  | nil => simp
  | cons x xs ih =>
    cases n with
    | zero => simp
    | succ m => simpa [Nat.succ_add] using ih m

/-! ### Pointwise characterisations of the invariant predicates -/

theorem rowsIdxOkB_iff (rows : List Erow) : rowsIdxOkB rows = true ↔ RowsIdxOk rows := by
  unfold rowsIdxOkB RowsIdxOk
  rw [List.all_eq_true]
  constructor
  · intro h i hi
    have := h i (List.mem_range.mpr hi)
    exact of_decide_eq_true this
  · intro h i hi
    exact decide_eq_true (h i (List.mem_range.mp hi))

theorem getD_eq_of_ge {α : Type} (l : List α) (j : Nat) (d : α) (h : l.length ≤ j) :
    l.getD j d = d := by
  induction l generalizing j with
  | nil => cases j <;> rfl
  | cons x xs ih =>
    cases j with
    | zero => simp at h
    | succ m => simpa using ih m (by simpa using h)

theorem getD_mem_of_lt {α : Type} (l : List α) (j : Nat) (d : α) (h : j < l.length) :
    l.getD j d ∈ l := by
  induction l generalizing j with
  | nil => simp at h
  | cons x xs ih =>
    cases j with
    | zero => simp
    | succ m =>
      simp only [List.getD_cons_succ, List.mem_cons]
      exact Or.inr (ih m (by simpa using h))

theorem mem_getD_form {α : Type} (l : List α) (r : α) (d : α) (h : r ∈ l) :
    ∃ j, j < l.length ∧ l.getD j d = r := by
  induction l with
  | nil => simp at h
  | cons x xs ih =>
    rcases List.mem_cons.mp h with rfl | h2
    · exact ⟨0, by simp, rfl⟩
    · obtain ⟨j, hj, he⟩ := ih h2
      exact ⟨j + 1, by simpa using hj, by simpa using he⟩

theorem rowsOkB_iff (rows : List Erow) :
    rowsOkB rows = true ↔ ∀ j, rowOkB (rows.getD j default) = true := by
  unfold rowsOkB
  rw [List.all_eq_true]
  constructor
  · intro h j
    by_cases hj : j < rows.length
    · exact h _ (getD_mem_of_lt _ _ _ hj)
    · rw [getD_eq_of_ge _ _ _ (by omega)]
      decide
  · intro h r hr
    obtain ⟨i, hi, he⟩ := mem_getD_form rows r default hr
    rw [← he]
    exact h i

theorem updSynAt_getD_chars (fuel : Nat) (st : EState) (pos j : Nat) :
    ((editorUpdateSyntaxAt st fuel pos).rows.getD j default).chars =
      (st.rows.getD j default).chars := by
  have h := updSynAt_map_chars fuel st pos
  have h1 := getD_map (fun r : Erow => r.chars) (editorUpdateSyntaxAt st fuel pos).rows j default
  have h2 := getD_map (fun r : Erow => r.chars) st.rows j default
  rw [← h1, ← h2, h]

theorem updSynAt_getD_render (fuel : Nat) (st : EState) (pos j : Nat) :
    ((editorUpdateSyntaxAt st fuel pos).rows.getD j default).render =
      (st.rows.getD j default).render := by
  have h := updSynAt_map_render fuel st pos
  have h1 := getD_map (fun r : Erow => r.render) (editorUpdateSyntaxAt st fuel pos).rows j default
  have h2 := getD_map (fun r : Erow => r.render) st.rows j default
  rw [← h1, ← h2, h]

theorem updSynAt_getD_idx (fuel : Nat) (st : EState) (pos j : Nat) :
    ((editorUpdateSyntaxAt st fuel pos).rows.getD j default).idx =
      (st.rows.getD j default).idx := by
  have h := updSynAt_map_idx fuel st pos
  have h1 := getD_map (fun r : Erow => r.idx) (editorUpdateSyntaxAt st fuel pos).rows j default
  have h2 := getD_map (fun r : Erow => r.idx) st.rows j default
  rw [← h1, ← h2, h]

/-- The cascade re-establishes the `hl` length invariant at every row it
touches and preserves it elsewhere: if every row other than `pos` has
`len hl = len render` then after `editorUpdateSyntaxAt st fuel pos` every
row does, provided the `idx` fields are the positions and the fuel covers
the remaining rows. -/
theorem updSynAt_hlLen : ∀ (fuel : Nat) (st : EState) (pos : Nat),
    RowsIdxOk st.rows →
    st.numrows ≤ st.rows.length →
    pos ≤ st.numrows →
    pos < st.rows.length →
    st.numrows + 1 ≤ fuel + pos →
    (∀ j, j ≠ pos → HlLenOk st.rows j) →
    ∀ j, HlLenOk (editorUpdateSyntaxAt st fuel pos).rows j := by
  intro fuel
  induction fuel with
  | zero => intro st pos hidx hn hp1 hp2 hfuel hok; omega
  | succ n ih =>
    intro st pos hidx hn hp1 hp2 hfuel hok
    simp only [editorUpdateSyntaxAt]
    cases hsyn : st.syndef with
    | none =>
      intro j
      unfold HlLenOk
      by_cases hj : j = pos
      · subst hj
        rw [getD_set_self _ _ _ _ hp2]
        simp
      · rw [getD_set_other _ _ _ _ _ hj]
        exact hok j hj
    | some syn =>
      simp only
      have hidxpos : (st.rows.getD pos default).idx = pos := hidx pos hp2
      split
      · -- cascade continues at pos + 1
        rename_i hcond
        rw [hidxpos] at hcond
        have hlt : pos + 1 < st.numrows := hcond.2
        rw [hidxpos]
        apply ih
        · intro i hi
          simp only [List.length_set] at hi
          by_cases hip : i = pos
          · subst hip
            rw [getD_set_self _ _ _ _ hp2]
          · rw [getD_set_other _ _ _ _ _ hip]
            exact hidx i hi
        · simpa using hn
        · simp only; omega
        · simp only [List.length_set]; omega
        · simp only; omega
        · intro j hj
          unfold HlLenOk
          by_cases hjp : j = pos
          · subst hjp
            rw [getD_set_self _ _ _ _ hp2]
            simp only
            exact updateSyntaxRow_fst_length syn _ _
          · rw [getD_set_other _ _ _ _ _ hjp]
            exact hok j hjp
      · intro j
        unfold HlLenOk
        by_cases hjp : j = pos
        · subst hjp
          rw [getD_set_self _ _ _ _ hp2]
          simp only
          exact updateSyntaxRow_fst_length syn _ _
        · rw [getD_set_other _ _ _ _ _ hjp]
          exact hok j hjp

theorem getD_lt_irrel {α : Type} (l : List α) (k : Nat) (d d' : α) (h : k < l.length) :
    l.getD k d = l.getD k d' := by
  induction l generalizing k with
  | nil => simp at h
  | cons x xs ih =>
    cases k with
    | zero => rfl
    | succ m => simpa using ih m (by simpa using h)

theorem rowOkB_iff (r : Erow) :
    rowOkB r = true ↔
      (r.hl.length = r.render.length ∧ r.render.all (fun b => b ≠ 9) = true ∧
        tabExpandOk 0 r.chars r.render = true) := by
  unfold rowOkB
  rw [Bool.and_eq_true, Bool.and_eq_true, decide_eq_true_eq]
  tauto

theorem rowOkB_idx_update (r : Erow) (n : Nat) : rowOkB { r with idx := n } = rowOkB r := rfl

theorem rowsIdxOk_set (rows : List Erow) (pos : Nat) (r : Erow)
    (h : RowsIdxOk rows) (hr : r.idx = (rows.getD pos default).idx) :
    RowsIdxOk (rows.set pos r) := by
  intro i hi
  simp only [List.length_set] at hi
  by_cases hip : i = pos
  · subst hip
    rw [getD_set_self _ _ _ _ hi, hr]
    exact h i hi
  · rw [getD_set_other _ _ _ _ _ hip]
    exact h i hi

/-- `editorUpdateRow` re-establishes the per-row invariants at `pos` and
preserves them elsewhere. -/
theorem updateRow_rowsOk (st : EState) (pos : Nat)
    (hidx : RowsIdxOk st.rows) (hn : st.numrows ≤ st.rows.length)
    (hp1 : pos ≤ st.numrows) (hp2 : pos < st.rows.length)
    (hok : ∀ j, j ≠ pos → rowOkB (st.rows.getD j default) = true) :
    ∀ j, rowOkB ((editorUpdateRow st pos).rows.getD j default) = true := by
  intro j
  unfold editorUpdateRow
  set row := st.rows.getD pos default with hrow
  set st1 : EState := { st with rows := st.rows.set pos { row with render := renderChars row.chars } } with hst1
  have hidx1 : RowsIdxOk st1.rows := rowsIdxOk_set _ _ _ hidx rfl
  have hchars : ∀ k, (st1.rows.getD k default).chars =
      (st.rows.getD k default).chars := by
    intro k
    by_cases hkp : k = pos
    · subst hkp; rw [hst1]; simp only; rw [getD_set_self _ _ _ _ hp2]
    · rw [hst1]; simp only; rw [getD_set_other _ _ _ _ _ hkp]
  have hrender : ∀ k, k ≠ pos → (st1.rows.getD k default).render =
      (st.rows.getD k default).render := by
    intro k hkp
    rw [hst1]; simp only; rw [getD_set_other _ _ _ _ _ hkp]
  have hrenderp : (st1.rows.getD pos default).render = renderChars row.chars := by
    rw [hst1]; simp only; rw [getD_set_self _ _ _ _ hp2]
  have hlen : ∀ k, HlLenOk (editorUpdateSyntaxAt st1 (st1.numrows + 1) pos).rows k := by
    apply updSynAt_hlLen
    · exact hidx1
    · simpa using hn
    · simpa using hp1
    · simpa using hp2
    · omega
    · intro k hk
      unfold HlLenOk
      rw [hst1]; simp only
      rw [getD_set_other _ _ _ _ _ hk]
      exact ((rowOkB_iff _).mp (hok k hk)).1
  rw [rowOkB_iff]
  refine ⟨hlen j, ?_, ?_⟩
  · rw [updSynAt_getD_render]
    by_cases hjp : j = pos
    · subst hjp
      rw [hrenderp]
      exact renderGo_noTab row.chars 0
    · rw [hrender j hjp]
      exact ((rowOkB_iff _).mp (hok j hjp)).2.1
  · rw [updSynAt_getD_render, updSynAt_getD_chars]
    by_cases hjp : j = pos
    · subst hjp
      rw [hrenderp, hchars]
      exact renderGo_tabOk _ 0
    · rw [hrender j hjp, hchars]
      exact ((rowOkB_iff _).mp (hok j hjp)).2.2

theorem rowInsertChar_rowsOk (st : EState) (pos at_ c : Nat)
    (hidx : RowsIdxOk st.rows) (hnr : st.numrows = st.rows.length)
    (hp : pos < st.numrows) (hok : rowsOkB st.rows = true) :
    rowsOkB (editorRowInsertChar st pos at_ c).rows = true := by
  rw [rowsOkB_iff]
  intro j
  unfold editorRowInsertChar
  simp only
  apply updateRow_rowsOk
  · exact rowsIdxOk_set _ _ _ hidx rfl
  · simp only [List.length_set]; omega
  · simp only; omega
  · simp only [List.length_set]; omega
  · intro k hk
    simp only
    rw [getD_set_other _ _ _ _ _ hk]
    exact (rowsOkB_iff _).mp hok k

theorem rowAppendString_rowsOk (st : EState) (pos : Nat) (s : List Nat)
    (hidx : RowsIdxOk st.rows) (hnr : st.numrows = st.rows.length)
    (hp : pos < st.numrows) (hok : rowsOkB st.rows = true) :
    rowsOkB (editorRowAppendString st pos s).rows = true := by
  rw [rowsOkB_iff]
  intro j
  unfold editorRowAppendString
  simp only
  apply updateRow_rowsOk
  · exact rowsIdxOk_set _ _ _ hidx rfl
  · simp only [List.length_set]; omega
  · simp only; omega
  · simp only [List.length_set]; omega
  · intro k hk
    simp only
    rw [getD_set_other _ _ _ _ _ hk]
    exact (rowsOkB_iff _).mp hok k

theorem rowDelChar_rowsOk (st : EState) (pos at_ : Nat)
    (hidx : RowsIdxOk st.rows) (hnr : st.numrows = st.rows.length)
    (hp : pos < st.numrows) (hok : rowsOkB st.rows = true) :
    rowsOkB (editorRowDelChar st pos at_).rows = true := by
  unfold editorRowDelChar
  simp only
  split
  · exact hok
  · rw [rowsOkB_iff]
    intro j
    apply updateRow_rowsOk
    · exact rowsIdxOk_set _ _ _ hidx rfl
    · simp only [List.length_set]; omega
    · simp only; omega
    · simp only [List.length_set]; omega
    · intro k hk
      simp only
      rw [getD_set_other _ _ _ _ _ hk]
      exact (rowsOkB_iff _).mp hok k

theorem getD_map_lt {α β : Type} (f : α → β) (l : List α) (k : Nat) (d' : β) (d : α)
    (h : k < l.length) : (l.map f).getD k d' = f (l.getD k d) := by
  rw [getD_lt_irrel _ _ _ (f d) (by simpa using h), getD_map]

theorem delRow_rowsOk (st : EState) (at_ : Nat) (hok : rowsOkB st.rows = true) :
    rowsOkB (editorDelRow st at_).rows = true := by
  unfold editorDelRow
  split
  · exact hok
  · simp only
    unfold rowsOkB at hok ⊢
    rw [List.all_append, Bool.and_eq_true]
    constructor
    · rw [List.all_eq_true] at hok ⊢
      intro r hr
      exact hok r (List.mem_of_mem_take hr)
    · rw [List.all_map, List.all_eq_true] at *
      intro r hr
      exact hok r (List.mem_of_mem_drop hr)

/-- Index-wise description of the shifted row array `editorInsertRow`
builds. -/
theorem insertRow_rows_getD (rows : List Erow) (at_ : Nat) (newRow : Erow)
    (h : at_ ≤ rows.length) (k : Nat) :
    (rows.take at_ ++ newRow :: (rows.drop at_).map (fun r => { r with idx := r.idx + 1 })).getD k default =
      if k < at_ then rows.getD k default
      else if k = at_ then newRow
      else if k < rows.length + 1 then
        { rows.getD (k - 1) default with idx := (rows.getD (k - 1) default).idx + 1 }
      else default := by
  have hlt : (rows.take at_).length = at_ := by
    rw [List.length_take]; omega
  by_cases h1 : k < at_
  · rw [if_pos h1, getD_append_left _ _ _ _ (by omega), getD_take _ _ _ _ h1]
  · rw [if_neg h1, getD_append_right _ _ _ _ (by omega), hlt]
    by_cases h2 : k = at_
    · subst h2
      rw [if_pos rfl]
      simp
    · rw [if_neg h2]
      have h3 : k - at_ = (k - at_ - 1) + 1 := by omega
      rw [h3]
      simp only [List.getD_cons_succ]
      by_cases h4 : k < rows.length + 1
      · rw [if_pos h4]
        have h5 : k - at_ - 1 < ((rows.drop at_).map (fun r => { r with idx := r.idx + 1 })).length := by
          simp only [List.length_map, List.length_drop]; omega
        have h6 : at_ + (k - at_ - 1) = k - 1 := by omega
        have h7 := getD_map_lt (fun r : Erow => { r with idx := r.idx + 1 })
          (rows.drop at_) (k - at_ - 1) default default
          (by simp only [List.length_drop]; omega)
        rw [getD_drop, h6] at h7
        exact h7
      · rw [if_neg h4]
        apply getD_eq_of_ge
        simp only [List.length_map, List.length_drop]
        omega

theorem insertRow_rowsOk (st : EState) (at_ : Nat) (s : List Nat)
    (hidx : RowsIdxOk st.rows) (hnr : st.numrows = st.rows.length)
    (hok : rowsOkB st.rows = true) :
    rowsOkB (editorInsertRow st at_ s).rows = true := by
  unfold editorInsertRow
  split
  · exact hok
  · rename_i hgt
    have hle : at_ ≤ st.rows.length := by omega
    simp only
    rw [rowsOkB_iff]
    intro j
    apply updateRow_rowsOk
    · intro i hi
      simp only [List.length_append, List.length_take, List.length_cons, List.length_map,
        List.length_drop] at hi
      rw [insertRow_rows_getD _ _ _ hle]
      by_cases h1 : i < at_
      · rw [if_pos h1]; exact hidx i (by omega)
      · rw [if_neg h1]
        by_cases h2 : i = at_
        · rw [if_pos h2]; exact h2.symm
        · rw [if_neg h2, if_pos (by omega)]
          simp only
          have := hidx (i - 1) (by omega)
          omega
    · simp only [List.length_append, List.length_take, List.length_cons, List.length_map,
        List.length_drop]
      omega
    · simp only
      omega
    · simp only [List.length_append, List.length_take, List.length_cons, List.length_map,
        List.length_drop]
      omega
    · intro k hk
      simp only
      rw [insertRow_rows_getD _ _ _ hle]
      by_cases h1 : k < at_
      · rw [if_pos h1]; exact (rowsOkB_iff _).mp hok k
      · rw [if_neg h1, if_neg hk]
        by_cases h2 : k < st.rows.length + 1
        · rw [if_pos h2, rowOkB_idx_update]
          exact (rowsOkB_iff _).mp hok (k - 1)
        · rw [if_neg h2]
          decide

/-- Claim C4: after every Row Store operation (insert_row, delete_row,
row_insert_char, row_append_string, row_delete_char) on a well-formed
document, every row satisfies `len(rendered) = len(highlight)`, `rendered`
holds no tab byte, and every tab of `raw` expands to 1..8 spaces ending at
a column that is a multiple of 8 (`rowsOkB`). -/
theorem rowOps_preserve_row_invariants :
    (∀ (st : EState) (at_ : Nat) (s : List Nat),
      rowsIdxOkB st.rows = true → st.numrows = st.rows.length → rowsOkB st.rows = true →
      rowsOkB (editorInsertRow st at_ s).rows = true) ∧
    (∀ (st : EState) (at_ : Nat), rowsOkB st.rows = true →
      rowsOkB (editorDelRow st at_).rows = true) ∧
    (∀ (st : EState) (pos at_ c : Nat),
      rowsIdxOkB st.rows = true → st.numrows = st.rows.length → pos < st.numrows →
      rowsOkB st.rows = true → rowsOkB (editorRowInsertChar st pos at_ c).rows = true) ∧
    (∀ (st : EState) (pos : Nat) (s : List Nat),
      rowsIdxOkB st.rows = true → st.numrows = st.rows.length → pos < st.numrows →
      rowsOkB st.rows = true → rowsOkB (editorRowAppendString st pos s).rows = true) ∧
    (∀ (st : EState) (pos at_ : Nat),
      rowsIdxOkB st.rows = true → st.numrows = st.rows.length → pos < st.numrows →
      rowsOkB st.rows = true → rowsOkB (editorRowDelChar st pos at_).rows = true) := by
  refine ⟨?_, ?_, ?_, ?_, ?_⟩
  · intro st at_ s hidx hnr hok
    exact insertRow_rowsOk st at_ s ((rowsIdxOkB_iff _).mp hidx) hnr hok
  · intro st at_ hok
    exact delRow_rowsOk st at_ hok
  · intro st pos at_ c hidx hnr hp hok
    exact rowInsertChar_rowsOk st pos at_ c ((rowsIdxOkB_iff _).mp hidx) hnr hp hok
  · intro st pos s hidx hnr hp hok
    exact rowAppendString_rowsOk st pos s ((rowsIdxOkB_iff _).mp hidx) hnr hp hok
  · intro st pos at_ hidx hnr hp hok
    exact rowDelChar_rowsOk st pos at_ ((rowsIdxOkB_iff _).mp hidx) hnr hp hok

/-- Witness for `rowOps_preserve_row_invariants` on the loaded C document,
exercising all five operations (with tabs involved). -/
theorem rowOps_preserve_row_invariants_witness :
    rowsIdxOkB commentDoc.rows = true ∧ commentDoc.numrows = commentDoc.rows.length ∧
    (0 : Nat) < commentDoc.numrows ∧ rowsOkB commentDoc.rows = true ∧
    rowsOkB (editorInsertRow commentDoc 1 (strBytes "int\tx;")).rows = true ∧
    rowsOkB (editorDelRow commentDoc 1).rows = true ∧
    rowsOkB (editorRowInsertChar commentDoc 0 1 9).rows = true ∧
    rowsOkB (editorRowAppendString commentDoc 0 (strBytes "\tabc")).rows = true ∧
    rowsOkB (editorRowDelChar commentDoc 0 0).rows = true :=
  ⟨by decide, by decide, by decide, by decide,
   rowOps_preserve_row_invariants.1 commentDoc 1 (strBytes "int\tx;") (by decide) (by decide)
     (by decide),
   rowOps_preserve_row_invariants.2.1 commentDoc 1 (by decide),
   rowOps_preserve_row_invariants.2.2.1 commentDoc 0 1 9 (by decide) (by decide) (by decide)
     (by decide),
   rowOps_preserve_row_invariants.2.2.2.1 commentDoc 0 (strBytes "\tabc") (by decide) (by decide)
     (by decide) (by decide),
   rowOps_preserve_row_invariants.2.2.2.2 commentDoc 0 0 (by decide) (by decide) (by decide)
     (by decide)⟩

/-! ### Claim C1 (amended part) -/

theorem syntaxConsistentB_iff (syn : SynDef) (rows : List Erow) :
    syntaxConsistentB syn rows = true ↔ ∀ i, i < rows.length → RowConsistentAt syn rows i := by
  unfold syntaxConsistentB RowConsistentAt
  rw [List.all_eq_true]
  constructor
  · intro h i hi
    have := h i (List.mem_range.mpr hi)
    rw [Bool.and_eq_true, decide_eq_true_eq, decide_eq_true_eq] at this
    exact this
  · intro h i hi
    rw [Bool.and_eq_true, decide_eq_true_eq, decide_eq_true_eq]
    exact h i (List.mem_range.mp hi)

theorem rowConsistentAt_congr (syn : SynDef) (rows rows' : List Erow) (i : Nat)
    (h1 : rows'.getD i default = rows.getD i default)
    (h2 : (rows'.getD (i - 1) default).hl_open_comment =
      (rows.getD (i - 1) default).hl_open_comment)
    (h : RowConsistentAt syn rows i) : RowConsistentAt syn rows' i := by
  unfold RowConsistentAt at *
  rw [h1, h2]
  exact h

/-- The cascade of `editorUpdateSyntax` establishes highlight consistency
from `pos` to the end of the file, given consistency strictly after `pos`,
and leaves rows before `pos` untouched. -/
theorem updSynAt_consistent : ∀ (fuel : Nat) (st : EState) (pos : Nat) (syn : SynDef),
    st.syndef = some syn →
    RowsIdxOk st.rows →
    st.numrows = st.rows.length →
    pos < st.rows.length →
    st.rows.length ≤ fuel + pos →
    (∀ j, pos < j → j < st.rows.length → RowConsistentAt syn st.rows j) →
    (∀ j, pos ≤ j → j < st.rows.length →
      RowConsistentAt syn (editorUpdateSyntaxAt st fuel pos).rows j) ∧
    (∀ j, j < pos →
      (editorUpdateSyntaxAt st fuel pos).rows.getD j default = st.rows.getD j default) := by
  intro fuel
  induction fuel with
  | zero => intro st pos syn hsyn hidx hnr hpos hfuel hcons; omega
  | succ n ih =>
    intro st pos syn hsyn hidx hnr hpos hfuel hcons
    have hidxpos : (st.rows.getD pos default).idx = pos := hidx pos hpos
    set res := updateSyntaxRow syn
      (decide (0 < (st.rows.getD pos default).idx) &&
        (st.rows.getD ((st.rows.getD pos default).idx - 1) default).hl_open_comment)
      (st.rows.getD pos default).render with hres
    set newRow : Erow := { st.rows.getD pos default with
      hl := res.1, hl_open_comment := res.2 } with hnew
    set st1 : EState := { st with rows := st.rows.set pos newRow, syndef := some syn } with hst1
    have hstep : editorUpdateSyntaxAt st (n + 1) pos =
        if ((st.rows.getD pos default).hl_open_comment ≠ res.2 ∧
            (st.rows.getD pos default).idx + 1 < st.numrows)
          then editorUpdateSyntaxAt st1 n ((st.rows.getD pos default).idx + 1)
          else st1 := by
      simp only [editorUpdateSyntaxAt, hsyn]
    rw [hidxpos] at hstep
    rw [hstep]
    have hgetpos : st1.rows.getD pos default = newRow := by
      rw [hst1]
      exact getD_set_self _ _ _ _ hpos
    have hgetother : ∀ j, j ≠ pos → st1.rows.getD j default = st.rows.getD j default := by
      intro j hj
      rw [hst1]
      exact getD_set_other _ _ _ _ _ hj
    have hlen1 : st1.rows.length = st.rows.length := by
      rw [hst1]; exact List.length_set ..
    have hconsPos : RowConsistentAt syn st1.rows pos := by
      unfold RowConsistentAt
      rw [hgetpos]
      cases pos with
      | zero =>
        rw [hnew, hres, hidxpos]
        simp only [show decide (0 < 0) = false from rfl, Bool.false_and]
        exact ⟨trivial, trivial⟩
      | succ m =>
        rw [Nat.add_sub_cancel, hgetother m (by omega), hnew, hres, hidxpos,
          Nat.add_sub_cancel]
        exact ⟨rfl, rfl⟩
    split
    · -- the open-comment status changed and a next row exists: cascade on
      rename_i hcond
      obtain ⟨hchanged, hnext⟩ := hcond
      obtain ⟨ih1, ih2⟩ := ih st1 (pos + 1) syn
        (by rw [hst1])
        (by rw [hst1]; exact rowsIdxOk_set _ _ _ hidx (by rw [hnew]))
        (by rw [hlen1, hst1]; exact hnr)
        (by rw [hlen1]; omega)
        (by rw [hlen1]; omega)
        (by
          intro j hj1 hj2
          rw [hlen1] at hj2
          refine rowConsistentAt_congr syn st.rows _ j ?_ ?_ (hcons j (by omega) hj2)
          · exact hgetother j (by omega)
          · rw [hgetother (j - 1) (by omega)])
      constructor
      · intro j hj1 hj2
        by_cases hjp : j = pos
        · subst hjp
          refine rowConsistentAt_congr syn st1.rows _ j ?_ ?_ hconsPos
          · exact ih2 j (by omega)
          · rw [ih2 (j - 1) (by omega)]
        · exact ih1 j (by omega) (by rw [hlen1]; exact hj2)
      · intro j hj
        rw [ih2 j (by omega)]
        exact hgetother j (by omega)
    · -- no further propagation
      rename_i hcond
      rw [not_and_or] at hcond
      constructor
      · intro j hj1 hj2
        by_cases hjp : j = pos
        · subst hjp
          exact hconsPos
        · have hj3 : pos < j := by omega
          refine rowConsistentAt_congr syn st.rows _ j ?_ ?_ (hcons j hj3 hj2)
          · exact hgetother j (by omega)
          · by_cases hj4 : j - 1 = pos
            · rw [hj4, hgetpos, hnew]
              rcases hcond with hc1 | hc2
              · simp only [not_not] at hc1
                simpa using hc1.symm
              · omega
            · rw [hgetother (j - 1) hj4]
      · intro j hj
        exact hgetother j (by omega)

/-- Replacing the `chars` of row `pos` and running `editorUpdateRow` (the
shape shared by `editorRowInsertChar`, `editorRowAppendString` and
`editorRowDelChar`) re-establishes full highlight consistency. -/
theorem setChars_updateRow_consistent (st : EState) (pos : Nat) (newChars : List Nat)
    (syn : SynDef) (hsyn : st.syndef = some syn) (hidx : RowsIdxOk st.rows)
    (hnr : st.numrows = st.rows.length) (hp : pos < st.numrows)
    (hcons : ∀ j, j < st.rows.length → RowConsistentAt syn st.rows j) :
    syntaxConsistentB syn
      ((editorUpdateRow
        { st with rows := st.rows.set pos { st.rows.getD pos default with chars := newChars } }
        pos).rows) = true := by
  have hplen : pos < st.rows.length := by omega
  set row1 : Erow := { st.rows.getD pos default with chars := newChars } with hrow1
  set st1 : EState := { st with rows := st.rows.set pos row1 } with hst1
  have hrowB : st1.rows.getD pos default = row1 := by
    rw [hst1]
    exact getD_set_self _ _ _ _ hplen
  set rowR : Erow := { row1 with render := renderChars row1.chars } with hrowR
  set stA : EState := { st1 with rows := st1.rows.set pos rowR } with hstA
  have hstep : editorUpdateRow st1 pos = editorUpdateSyntaxAt stA (stA.numrows + 1) pos := by
    simp only [editorUpdateRow, hrowB]
  rw [hstep]
  have hgetposA : stA.rows.getD pos default = rowR := by
    rw [hstA]
    simp only
    apply getD_set_self
    simp only [List.length_set]
    exact hplen
  have hgetotherA : ∀ j, j ≠ pos → stA.rows.getD j default = st.rows.getD j default := by
    intro j hj
    rw [hstA]
    simp only
    rw [getD_set_other _ _ _ _ _ hj]
    exact getD_set_other _ _ _ _ _ hj
  have hlenA : stA.rows.length = st.rows.length := by
    rw [hstA]
    simp only [List.length_set]
  have hopenA : ∀ j, (stA.rows.getD j default).hl_open_comment =
      (st.rows.getD j default).hl_open_comment := by
    intro j
    by_cases hj : j = pos
    · subst hj
      rw [hgetposA, hrowR, hrow1]
    · rw [hgetotherA j hj]
  obtain ⟨main, frame⟩ := updSynAt_consistent (stA.numrows + 1) stA pos syn
    (by rw [hstA]; simp only; exact hsyn)
    (by
      rw [hstA]
      simp only
      apply rowsIdxOk_set
      · exact rowsIdxOk_set _ _ _ hidx (by rw [hrow1])
      · rw [getD_set_self _ _ _ _ hplen, hrowR])
    (by
      rw [hlenA, hstA]
      simp only
      exact hnr)
    (by rw [hlenA]; exact hplen)
    (by
      rw [hlenA, hstA]
      simp only
      omega)
    (by
      intro j hj1 hj2
      rw [hlenA] at hj2
      refine rowConsistentAt_congr syn st.rows _ j ?_ ?_ (hcons j hj2)
      · exact hgetotherA j (by omega)
      · rw [hopenA])
  rw [syntaxConsistentB_iff]
  intro i hi
  rw [updSynAt_rows_length, hlenA] at hi
  by_cases hip : pos ≤ i
  · exact main i hip (by rw [hlenA]; exact hi)
  · refine rowConsistentAt_congr syn st.rows _ i ?_ ?_ (hcons i hi)
    · rw [frame i (by omega)]
      exact hgetotherA i (by omega)
    · rw [frame (i - 1) (by omega)]
      rw [hopenA]

/-- Claim C1, amended: every character edit (`editorRowInsertChar`,
`editorRowAppendString`, `editorRowDelChar`) on a well-formed consistent
document preserves the invariant that each row's highlight array and
`open_comment` are the highlighter output against the predecessor's current
`open_comment` — the recursive cascade re-highlights later rows until the
first row whose status is unchanged.  (`editorDelRow` does not, see the
counterexample.) -/
theorem charEdits_preserve_highlight_consistency :
    (∀ (st : EState) (pos at_ c : Nat) (syn : SynDef),
      st.syndef = some syn → rowsIdxOkB st.rows = true → st.numrows = st.rows.length →
      pos < st.numrows → syntaxConsistentB syn st.rows = true →
      syntaxConsistentB syn (editorRowInsertChar st pos at_ c).rows = true) ∧
    (∀ (st : EState) (pos : Nat) (s : List Nat) (syn : SynDef),
      st.syndef = some syn → rowsIdxOkB st.rows = true → st.numrows = st.rows.length →
      pos < st.numrows → syntaxConsistentB syn st.rows = true →
      syntaxConsistentB syn (editorRowAppendString st pos s).rows = true) ∧
    (∀ (st : EState) (pos at_ : Nat) (syn : SynDef),
      st.syndef = some syn → rowsIdxOkB st.rows = true → st.numrows = st.rows.length →
      pos < st.numrows → syntaxConsistentB syn st.rows = true →
      syntaxConsistentB syn (editorRowDelChar st pos at_).rows = true) := by
  refine ⟨?_, ?_, ?_⟩
  · intro st pos at_ c syn hsyn hidx hnr hp hcons
    unfold editorRowInsertChar
    simp only
    exact setChars_updateRow_consistent st pos _ syn hsyn ((rowsIdxOkB_iff _).mp hidx) hnr hp
      (fun j hj => (syntaxConsistentB_iff syn st.rows).mp hcons j hj)
  · intro st pos s syn hsyn hidx hnr hp hcons
    unfold editorRowAppendString
    simp only
    exact setChars_updateRow_consistent st pos _ syn hsyn ((rowsIdxOkB_iff _).mp hidx) hnr hp
      (fun j hj => (syntaxConsistentB_iff syn st.rows).mp hcons j hj)
  · intro st pos at_ syn hsyn hidx hnr hp hcons
    unfold editorRowDelChar
    simp only
    split
    · exact hcons
    · simp only
      exact setChars_updateRow_consistent st pos _ syn hsyn ((rowsIdxOkB_iff _).mp hidx) hnr hp
        (fun j hj => (syntaxConsistentB_iff syn st.rows).mp hcons j hj)

/-- Witness for `charEdits_preserve_highlight_consistency` on the loaded C
document, with edits that change comment structure. -/
theorem charEdits_preserve_highlight_consistency_witness :
    commentDoc.syndef = some cSyntax ∧ rowsIdxOkB commentDoc.rows = true ∧
    commentDoc.numrows = commentDoc.rows.length ∧ (0 : Nat) < commentDoc.numrows ∧
    syntaxConsistentB cSyntax commentDoc.rows = true ∧
    syntaxConsistentB cSyntax (editorRowInsertChar commentDoc 0 2 47).rows = true ∧
    syntaxConsistentB cSyntax (editorRowAppendString commentDoc 2 (strBytes "*/")).rows = true ∧
    syntaxConsistentB cSyntax (editorRowDelChar commentDoc 1 0).rows = true :=
  ⟨by decide, by decide, by decide, by decide, by decide,
   charEdits_preserve_highlight_consistency.1 commentDoc 0 2 47 cSyntax (by decide) (by decide)
     (by decide) (by decide) (by decide),
   charEdits_preserve_highlight_consistency.2.1 commentDoc 2 (strBytes "*/") cSyntax (by decide)
     (by decide) (by decide) (by decide) (by decide),
   charEdits_preserve_highlight_consistency.2.2 commentDoc 1 0 cSyntax (by decide) (by decide)
     (by decide) (by decide) (by decide)⟩

theorem dropWhile_append_eq {α : Type} (p : α → Bool) (l1 l2 : List α) :
    (l1 ++ l2).dropWhile p =
      if (l1.dropWhile p).isEmpty then l2.dropWhile p else l1.dropWhile p ++ l2 := by
  induction l1 with
  | nil => simp
  | cons x xs ih =>
    by_cases hx : p x
    · simpa [List.dropWhile_cons, hx] using ih
    · simp [List.dropWhile_cons, hx]

theorem stripCrLf_cons (b : Nat) (l : List Nat) :
    stripCrLf (b :: l) =
      if (stripCrLf l).isEmpty then (if b = 10 ∨ b = 13 then [] else [b])
      else b :: stripCrLf l := by
  unfold stripCrLf
  rw [List.reverse_cons, dropWhile_append_eq]
  by_cases he : (l.reverse.dropWhile (fun b => b = 10 || b = 13)).isEmpty
  · rw [if_pos he, if_pos (by simpa using he)]
    by_cases hb : b = 10 ∨ b = 13
    · rw [if_pos hb]
      have : (decide (b = 10) || decide (b = 13)) = true := by
        rcases hb with h | h <;> simp [h]
      simp [List.dropWhile_cons, this]
    · rw [if_neg hb]
      have h10 : ¬b = 10 := fun h => hb (Or.inl h)
      have h13 : ¬b = 13 := fun h => hb (Or.inr h)
      simp [List.dropWhile_cons, h10, h13]
  · rw [if_neg he, if_neg (by simpa using he)]
    rw [List.reverse_append]
    rfl

theorem getLast?_cons_of_ne_nil {α : Type} (b : α) (t : List α) (h : t ≠ []) :
    (b :: t).getLast? = t.getLast? := by
  cases t with
  | nil => exact absurd rfl h
  | cons x xs => rfl

theorem loadRows_good : ∀ (bs : List Nat), (loadRows bs).all goodRowB = true := by
  intro bs
  induction bs with
  | nil => rfl
  | cons b bs ih =>
    unfold loadRows splitKeep
    by_cases hb : b = 10
    · rw [if_pos hb]
      simp only [List.map_cons, List.all_cons, Bool.and_eq_true]
      exact ⟨by decide, by simpa [loadRows, List.all_eq_true] using ih⟩
    · rw [if_neg hb]
      cases hsk : splitKeep bs with
      | nil => 
        simp only [List.map_cons, List.map_nil, List.all_cons, List.all_nil, Bool.and_true]
        rw [stripCrLf_cons]
        simp only [stripCrLf, List.reverse_nil, List.dropWhile_nil, List.isEmpty_nil, if_pos rfl]
        by_cases hb13 : b = 13
        · rw [if_pos (Or.inr hb13)]; rfl
        · rw [if_neg (show ¬(b = 10 ∨ b = 13) from fun h => h.elim hb hb13)]
          simp [goodRowB, hb, hb13]
      | cons c cs =>
        rw [loadRows, hsk] at ih
        simp only [List.map_cons, List.all_cons, Bool.and_eq_true] at ih
        obtain ⟨ihc, ihcs⟩ := ih
        simp only [List.map_cons, List.all_cons, Bool.and_eq_true]
        refine ⟨?_, ihcs⟩
        rw [stripCrLf_cons]
        by_cases he : (stripCrLf c).isEmpty
        · rw [if_pos he]
          by_cases hb13 : b = 13
          · rw [if_pos (Or.inr hb13)]; rfl
          · rw [if_neg (show ¬(b = 10 ∨ b = 13) from fun h => h.elim hb hb13)]
            simp [goodRowB, hb, hb13]
        · rw [if_neg he]
          unfold goodRowB at ihc ⊢
          rw [Bool.and_eq_true] at ihc ⊢
          obtain ⟨ihc1, ihc2⟩ := ihc
          constructor
          · rw [List.all_cons, Bool.and_eq_true]
            exact ⟨by simpa using hb, ihc1⟩
          · rw [getLast?_cons_of_ne_nil _ _ (by simpa [List.isEmpty_iff] using he)]
            exact ihc2

theorem stripCrLf_append_lf (l : List Nat) : stripCrLf (l ++ [10]) = stripCrLf l := by
  unfold stripCrLf
  rw [List.reverse_append]
  rfl

theorem stripCrLf_of_good (r : List Nat) (h : goodRowB r = true) : stripCrLf r = r := by
  unfold stripCrLf
  have hlast : ∀ x, r.getLast? = some x → (x = 10 || x = 13) = false := by
    intro x hx
    unfold goodRowB at h
    rw [Bool.and_eq_true, hx] at h
    simpa using h.2
  have : r.reverse.dropWhile (fun b => b = 10 || b = 13) = r.reverse := by
    cases hr : r.reverse with
    | nil => rfl
    | cons x xs =>
      rw [List.dropWhile_cons]
      have hx : r.getLast? = some x := by
        rw [← List.head?_reverse, hr]
        rfl
      rw [if_neg (by simp [hlast x hx])]
  rw [this, List.reverse_reverse]

theorem splitKeep_line : ∀ (r rest : List Nat), (∀ b ∈ r, b ≠ 10) →
    splitKeep (r ++ 10 :: rest) = (r ++ [10]) :: splitKeep rest := by
  intro r
  induction r with
  | nil =>
    intro rest _
    simp [splitKeep]
  | cons b r ih =>
    intro rest hb
    have hb10 : ¬b = 10 := hb b (List.mem_cons_self b r)
    simp only [List.cons_append, splitKeep, if_neg hb10]
    simp only [List.append_eq]
    rw [ih rest (fun x hx => hb x (List.mem_cons_of_mem b hx))]

theorem loadRows_roundtrip : ∀ (rows : List (List Nat)), rows.all goodRowB = true →
    loadRows ((rows.map (fun r => r ++ [10])).flatten) = rows := by
  intro rows
  induction rows with
  | nil => intro _; rfl
  | cons r rs ih =>
    intro h
    rw [List.all_cons, Bool.and_eq_true] at h
    obtain ⟨hr, hrs⟩ := h
    have hno10 : ∀ b ∈ r, b ≠ 10 := by
      unfold goodRowB at hr
      rw [Bool.and_eq_true, List.all_eq_true] at hr
      intro b hb
      simpa using hr.1 b hb
    simp only [List.map_cons, List.flatten_cons]
    have hshape : r ++ [10] ++ (rs.map (fun r => r ++ [10])).flatten =
        r ++ 10 :: (rs.map (fun r => r ++ [10])).flatten := by
      rw [List.append_assoc]
      rfl
    rw [hshape]
    unfold loadRows
    rw [splitKeep_line _ _ hno10]
    simp only [List.map_cons]
    rw [stripCrLf_append_lf, stripCrLf_of_good r hr]
    unfold loadRows at ih
    rw [ih hrs]

theorem range_map_getD_comp {α β : Type} (l : List α) (d : α) (f : α → β) :
    (List.range l.length).map (fun j => f (l.getD j d)) = l.map f := by
  have h1 : (fun j => f (l.getD j d)) = f ∘ (fun j => l.getD j d) := rfl
  rw [h1, ← List.map_map, range_map_getD]

theorem editorRowsToString_eq (st : EState) (h : st.numrows = st.rows.length) :
    editorRowsToString st = (st.rows.map (fun r => r.chars ++ [10])).flatten := by
  unfold editorRowsToString
  rw [h]
  rw [range_map_getD_comp st.rows default (fun r => r.chars ++ [10])]

theorem updateRow_map_chars (st : EState) (pos : Nat) :
    (editorUpdateRow st pos).rows.map (fun r => r.chars) = st.rows.map (fun r => r.chars) := by
  unfold editorUpdateRow
  simp only
  rw [updSynAt_map_chars]
  exact map_set_eq_of_getD _ _ _ _ default rfl

theorem updateRow_numrows (st : EState) (pos : Nat) :
    (editorUpdateRow st pos).numrows = st.numrows := by
  unfold editorUpdateRow
  simp only
  rw [updSynAt_numrows]

theorem insertRow_end_chars (st : EState) (s : List Nat) (h : st.numrows = st.rows.length) :
    (editorInsertRow st st.numrows s).rows.map (fun r => r.chars) =
      st.rows.map (fun r => r.chars) ++ [s] ∧
    (editorInsertRow st st.numrows s).numrows = st.numrows + 1 ∧
    (editorInsertRow st st.numrows s).rows.length = st.rows.length + 1 := by
  unfold editorInsertRow
  rw [if_neg (by omega)]
  simp only
  refine ⟨?_, ?_, ?_⟩
  · rw [updateRow_map_chars]
    simp only
    rw [h, List.take_length, List.drop_length]
    simp
  · rw [updateRow_numrows]
  · have hlen := congrArg List.length (updateRow_map_chars
      { st with rows := st.rows.take st.numrows ++
          { idx := st.numrows, chars := s, render := [], hl := [], hl_open_comment := false } ::
          (st.rows.drop st.numrows).map (fun r => { r with idx := r.idx + 1 }) } st.numrows)
    simp only [List.length_map] at hlen
    rw [hlen]
    simp only [h, List.take_length, List.drop_length, List.map_nil]
    simp

theorem open_fold_chars : ∀ (lines : List (List Nat)) (st : EState),
    st.numrows = st.rows.length →
    ((lines.foldl (fun s line => editorInsertRow s s.numrows line) st).rows.map (fun r => r.chars) =
        st.rows.map (fun r => r.chars) ++ lines ∧
     (lines.foldl (fun s line => editorInsertRow s s.numrows line) st).numrows =
        (lines.foldl (fun s line => editorInsertRow s s.numrows line) st).rows.length) := by
  intro lines
  induction lines with
  | nil =>
    intro st h
    constructor
    · simp
    · simpa using h
  | cons l ls ih =>
    intro st h
    obtain ⟨h1, h2, h3⟩ := insertRow_end_chars st l h
    simp only [List.foldl_cons]
    obtain ⟨ih1, ih2⟩ := ih (editorInsertRow st st.numrows l) (by omega)
    constructor
    · rw [ih1, h1]
      simp
    · exact ih2

theorem foldl_updSyn_frame : ∀ (l : List Nat) (st : EState),
    ((l.foldl (fun s i => editorUpdateSyntaxAt s (s.numrows + 1) i) st).rows.map (fun r => r.chars) =
        st.rows.map (fun r => r.chars) ∧
     (l.foldl (fun s i => editorUpdateSyntaxAt s (s.numrows + 1) i) st).numrows = st.numrows) := by
  intro l
  induction l with
  | nil => intro st; exact ⟨rfl, rfl⟩
  | cons x xs ih =>
    intro st
    simp only [List.foldl_cons]
    obtain ⟨ih1, ih2⟩ := ih (editorUpdateSyntaxAt st (st.numrows + 1) x)
    exact ⟨by rw [ih1, updSynAt_map_chars], by rw [ih2, updSynAt_numrows]⟩

theorem selectSyntax_frame (st : EState) :
    (editorSelectSyntaxHighlight st).rows.map (fun r => r.chars) = st.rows.map (fun r => r.chars) ∧
    (editorSelectSyntaxHighlight st).numrows = st.numrows := by
  unfold editorSelectSyntaxHighlight
  simp only
  cases hf : st.filename with
  | none => exact ⟨rfl, rfl⟩
  | some fname =>
    simp only
    cases hdb : HLDB.find? (fun s => synMatches s fname) with
    | none => exact ⟨rfl, rfl⟩
    | some s =>
      simp only
      unfold rehighlightAll
      exact foldl_updSyn_frame _ _

theorem editorOpen_chars (st : EState) (fname bs : List Nat)
    (h : st.numrows = st.rows.length) :
    (editorOpen st fname bs).rows.map (fun r => r.chars) =
      st.rows.map (fun r => r.chars) ++ loadRows bs ∧
    (editorOpen st fname bs).numrows = (editorOpen st fname bs).rows.length := by
  unfold editorOpen
  simp only
  obtain ⟨h1, h2⟩ := selectSyntax_frame { st with filename := some fname }
  have hlen : (editorSelectSyntaxHighlight { st with filename := some fname }).numrows =
      (editorSelectSyntaxHighlight { st with filename := some fname }).rows.length := by
    have := congrArg List.length h1
    simp only [List.length_map] at this
    rw [h2, this, h]
  obtain ⟨g1, g2⟩ := open_fold_chars (loadRows bs)
    (editorSelectSyntaxHighlight { st with filename := some fname }) hlen
  exact ⟨by rw [g1, h1], g2⟩

/-- **C2**: loading a file and serializing it back is lossless at the level of
row contents: re-opening the serialized bytes reproduces exactly the same raw
row contents and the same row count as the first open (`editorRowsToString`
appends one LF per row, `editorOpen` splits on LF and strips trailing LF / CR,
and rows loaded from a file never contain an interior LF or end in CR). -/
theorem editorOpen_rowsToString_roundtrip (sr sc : Nat) (fname bs : List Nat) :
    (editorOpen (initState sr sc) fname
        (editorRowsToString (editorOpen (initState sr sc) fname bs))).rows.map (fun r => r.chars) =
      (editorOpen (initState sr sc) fname bs).rows.map (fun r => r.chars) ∧
    (editorOpen (initState sr sc) fname
        (editorRowsToString (editorOpen (initState sr sc) fname bs))).numrows =
      (editorOpen (initState sr sc) fname bs).numrows := by
  have h0 : (initState sr sc).numrows = (initState sr sc).rows.length := rfl
  obtain ⟨a1, a2⟩ := editorOpen_chars (initState sr sc) fname bs h0
  set st1 := editorOpen (initState sr sc) fname bs with hst1
  have hA : st1.rows.map (fun r => r.chars) = loadRows bs := by
    rw [a1, show (initState sr sc).rows = [] from rfl]
    rfl
  have hser : editorRowsToString st1 = ((loadRows bs).map (fun r => r ++ [10])).flatten := by
    rw [editorRowsToString_eq st1 a2, ← hA, List.map_map]
    rfl
  obtain ⟨b1, b2⟩ := editorOpen_chars (initState sr sc) fname (editorRowsToString st1) h0
  have hB : (editorOpen (initState sr sc) fname (editorRowsToString st1)).rows.map
      (fun r => r.chars) = loadRows (editorRowsToString st1) := by
    rw [b1, show (initState sr sc).rows = [] from rfl]
    rfl
  have hround : loadRows (editorRowsToString st1) = loadRows bs := by
    rw [hser, loadRows_roundtrip (loadRows bs) (loadRows_good bs)]
  refine ⟨by rw [hB, hround, hA], ?_⟩
  have l2 := congrArg List.length hB
  simp only [List.length_map] at l2
  have l1 := congrArg List.length hA
  simp only [List.length_map] at l1
  rw [b2, l2, hround, ← l1, ← a2]

/-! ### Claim C8: the dirty-counter lifecycle -/

theorem scroll_dirty (st : EState) : (editorScroll st).dirty = st.dirty := rfl

theorem applyCb_dirty (cb : Option (List Nat → Nat → EState → EState))
    (hcb : ∀ b k s, (applyCb cb b k s).dirty = s.dirty) (b : List Nat) (k : Nat) (s : EState) :
    (applyCb cb b k s).dirty = s.dirty := hcb b k s

theorem foldl_updSyn_dirty : ∀ (l : List Nat) (st : EState),
    (l.foldl (fun s i => editorUpdateSyntaxAt s (s.numrows + 1) i) st).dirty = st.dirty := by
  intro l
  induction l with
  | nil => intro st; rfl
  | cons x xs ih =>
    intro st
    simp only [List.foldl_cons]
    rw [ih, updSynAt_dirty]

theorem selectSyntax_dirty (st : EState) :
    (editorSelectSyntaxHighlight st).dirty = st.dirty := by
  unfold editorSelectSyntaxHighlight
  simp only
  cases hf : st.filename with
  | none => rfl
  | some fname =>
    simp only
    cases hdb : HLDB.find? (fun s => synMatches s fname) with
    | none => rfl
    | some s =>
      simp only
      unfold rehighlightAll
      exact foldl_updSyn_dirty _ _

theorem set_eq_of_le {α : Type} (l : List α) (n : Nat) (a : α) (h : l.length ≤ n) :
    l.set n a = l := by
  induction l generalizing n with
  | nil => simp
  | cons x xs ih =>
    cases n with
    | zero => simp at h
    | succ m => simpa using ih m (by simpa using h)

theorem updateRow_getD_chars (st : EState) (pos j : Nat) :
    ((editorUpdateRow st pos).rows.getD j default).chars = (st.rows.getD j default).chars := by
  unfold editorUpdateRow
  simp only
  rw [updSynAt_getD_chars]
  by_cases hj : j = pos
  · subst hj
    by_cases hlt : j < st.rows.length
    · rw [getD_set_self _ _ _ _ hlt]
    · rw [set_eq_of_le _ _ _ (by omega)]
  · rw [getD_set_other _ _ _ _ _ hj]

theorem rowInsertChar_getD_chars (st : EState) (pos at_ c : Nat) (h : pos < st.rows.length) :
    ((editorRowInsertChar st pos at_ c).rows.getD pos default).chars =
      (let row := st.rows.getD pos default
       let at2 := if at_ > row.chars.length then row.chars.length else at_
       row.chars.take at2 ++ c :: row.chars.drop at2) := by
  unfold editorRowInsertChar
  simp only
  rw [updateRow_getD_chars]
  rw [getD_set_self _ _ _ _ h]

theorem rowAppendString_getD_chars (st : EState) (pos : Nat) (s : List Nat)
    (h : pos < st.rows.length) :
    ((editorRowAppendString st pos s).rows.getD pos default).chars =
      (st.rows.getD pos default).chars ++ s := by
  unfold editorRowAppendString
  simp only
  rw [updateRow_getD_chars]
  rw [getD_set_self _ _ _ _ h]

theorem rowDelChar_getD_chars (st : EState) (pos at_ : Nat) (h : pos < st.rows.length)
    (h2 : at_ < (st.rows.getD pos default).chars.length) :
    ((editorRowDelChar st pos at_).rows.getD pos default).chars =
      (st.rows.getD pos default).chars.take at_ ++
        (st.rows.getD pos default).chars.drop (at_ + 1) := by
  simp only [editorRowDelChar]
  rw [if_neg (by omega)]
  simp only
  rw [updateRow_getD_chars]
  rw [getD_set_self _ _ _ _ h]

theorem take_append_of_le {α : Type} (l l2 : List α) (n : Nat) (h : n ≤ l.length) :
    (l ++ l2).take n = l.take n := by
  induction l generalizing n with
  | nil => simp at h; simp [h]
  | cons x xs ih =>
    cases n with
    | zero => rfl
    | succ m => simpa using ih m (by simpa using h)

theorem drop_append_of_le {α : Type} (l l2 : List α) (n : Nat) (h : n ≤ l.length) :
    (l ++ l2).drop n = l.drop n ++ l2 := by
  induction l generalizing n with
  | nil => simp at h; simp [h]
  | cons x xs ih =>
    cases n with
    | zero => rfl
    | succ m => simpa using ih m (by simpa using h)

theorem take_of_length_le {α : Type} (l : List α) (n : Nat) (h : l.length ≤ n) :
    l.take n = l := by
  induction l generalizing n with
  | nil => simp
  | cons x xs ih =>
    cases n with
    | zero => simp at h
    | succ m => simpa using ih m (by simpa using h)

theorem takeWhile_append_all {α : Type} (p : α → Bool) : ∀ (l l2 : List α),
    (∀ b ∈ l, p b = true) → (l ++ l2).takeWhile p = l ++ l2.takeWhile p := by
  intro l
  induction l with
  | nil => intro l2 _; rfl
  | cons x xs ih =>
    intro l2 h
    have hx : p x = true := h x (List.mem_cons_self x xs)
    simp only [List.cons_append, List.takeWhile_cons, hx, if_true]
    rw [ih l2 (fun b hb => h b (List.mem_cons_of_mem x hb))]

theorem charsBufInsertChar_shape (chars : List Nat) (at_ c : Nat) :
    charsBufInsertChar (chars ++ [0]) chars.length at_ c =
      (let at2 := if at_ > chars.length then chars.length else at_
       chars.take at2 ++ c :: chars.drop at2) ++ [0] := by
  unfold charsBufInsertChar
  simp only
  set at2 := if at_ > chars.length then chars.length else at_ with hat2
  have hle : at2 ≤ chars.length := by
    rw [hat2]
    split <;> omega
  rw [take_append_of_le _ _ _ hle, drop_append_of_le _ _ _ hle]
  rw [take_of_length_le (chars.drop at2 ++ [0]) (chars.length - at2 + 1) (by
    simp only [List.length_append, List.length_drop, List.length_cons, List.length_nil]
    omega)]
  rw [List.append_assoc, List.cons_append]

theorem charsBufAppendString_shape (chars s : List Nat) :
    charsBufAppendString (chars ++ [0]) chars.length s = (chars ++ s) ++ [0] := by
  unfold charsBufAppendString
  rw [take_append_of_le _ _ _ (Nat.le_refl _), List.take_length, List.append_assoc]

theorem charsBufDelChar_shape (chars : List Nat) (at_ : Nat) (h : at_ < chars.length) :
    charsBufDelChar (chars ++ [0]) chars.length at_ =
      (chars.take at_ ++ chars.drop (at_ + 1)) ++ [0] := by
  unfold charsBufDelChar
  rw [take_append_of_le _ _ _ (by omega), drop_append_of_le _ _ _ (by omega)]
  rw [take_of_length_le (chars.drop (at_ + 1) ++ [0]) (chars.length - at_) (by
    simp only [List.length_append, List.length_drop, List.length_cons, List.length_nil]
    omega)]
  rw [List.append_assoc]

theorem getD_append_nul (content : List Nat) (j d : Nat) (h : j ≤ content.length) :
    (content ++ [0]).getD j d = content.getD j 0 := by
  by_cases hj : j < content.length
  · rw [getD_append_left _ _ _ _ hj, getD_lt_irrel _ _ _ _ hj]
  · have hj2 : j = content.length := by omega
    subst hj2
    rw [getD_append_right _ _ _ _ (Nat.le_refl _), getD_eq_of_ge _ _ _ (Nat.le_refl _)]
    simp

theorem takeWhile_all {α : Type} (p : α → Bool) : ∀ (l : List α),
    (∀ b ∈ l, p b = true) → l.takeWhile p = l := by
  intro l
  induction l with
  | nil => intro _; rfl
  | cons x xs ih =>
    intro h
    have hx : p x = true := h x (List.mem_cons_self x xs)
    simp only [List.takeWhile_cons, hx, if_true]
    rw [ih (fun b hb => h b (List.mem_cons_of_mem x hb))]

theorem strstrIdx_renderBuf (chars q : List Nat)
    (h : (renderChars chars).all (fun b => b ≠ 0) = true) :
    strstrIdx (renderBuf chars) q = strstrIdx (renderChars chars) q := by
  unfold strstrIdx renderBuf
  simp only
  have hmem := List.all_eq_true.mp h
  rw [takeWhile_append_all _ _ _ hmem, takeWhile_all _ _ hmem]
  rw [show (List.takeWhile (fun b => decide ¬(b = 0)) [0]) = ([] : List Nat) from rfl]
  rw [List.append_nil]

/-- Claim C10 (implicit): the row byte buffers stay NUL-terminated through the
row-store byte manipulations — performing each C-level buffer operation
(`memmove` arithmetic included) on the NUL-terminated `chars` allocation of a
row reproduces exactly the row's new content followed by the terminator, the
freshly allocated `chars` and `render` buffers carry their terminator at index
`size` / `rsize` with the content intact before it — and this terminator is
what the highlighter's separator probe and the search's `strstr` scan rely on:
reading the terminated buffer at any index up to the content length equals the
model's total read with NUL default, NUL is a separator (so end-of-line ends a
keyword), and `strstr` over the terminated `render` buffer finds exactly what
it finds over the row's render content. -/
theorem row_buffers_nul_terminated :
    (∀ (st : EState) (pos at_ c : Nat), pos < st.rows.length →
      charsBufInsertChar ((st.rows.getD pos default).chars ++ [0])
          (st.rows.getD pos default).chars.length at_ c =
        ((editorRowInsertChar st pos at_ c).rows.getD pos default).chars ++ [0]) ∧
    (∀ (st : EState) (pos : Nat) (s : List Nat), pos < st.rows.length →
      charsBufAppendString ((st.rows.getD pos default).chars ++ [0])
          (st.rows.getD pos default).chars.length s =
        ((editorRowAppendString st pos s).rows.getD pos default).chars ++ [0]) ∧
    (∀ (st : EState) (pos at_ : Nat), pos < st.rows.length →
      at_ < (st.rows.getD pos default).chars.length →
      charsBufDelChar ((st.rows.getD pos default).chars ++ [0])
          (st.rows.getD pos default).chars.length at_ =
        ((editorRowDelChar st pos at_).rows.getD pos default).chars ++ [0]) ∧
    (∀ s : List Nat, (charsBufNewRow s).getD s.length 1 = 0 ∧
      (charsBufNewRow s).take s.length = s) ∧
    (∀ chars : List Nat, (renderBuf chars).getD (renderChars chars).length 1 = 0 ∧
      (renderBuf chars).take (renderChars chars).length = renderChars chars) ∧
    (∀ (content : List Nat) (j d : Nat), j ≤ content.length →
      (content ++ [0]).getD j d = content.getD j 0) ∧
    is_separator 0 = true ∧
    (∀ (chars q : List Nat), (renderChars chars).all (fun b => b ≠ 0) = true →
      strstrIdx (renderBuf chars) q = strstrIdx (renderChars chars) q) := by
  refine ⟨?_, ?_, ?_, ?_, ?_, getD_append_nul, by decide, strstrIdx_renderBuf⟩
  · intro st pos at_ c h
    rw [charsBufInsertChar_shape, rowInsertChar_getD_chars st pos at_ c h]
  · intro st pos s h
    rw [charsBufAppendString_shape, rowAppendString_getD_chars st pos s h]
  · intro st pos at_ h h2
    rw [charsBufDelChar_shape _ _ h2, rowDelChar_getD_chars st pos at_ h h2]
  · intro s
    constructor
    · rw [show charsBufNewRow s = s ++ [0] from rfl]
      rw [getD_append_right _ _ _ _ (Nat.le_refl _)]
      simp
    · rw [show charsBufNewRow s = s ++ [0] from rfl]
      rw [take_append_of_le _ _ _ (Nat.le_refl _), List.take_length]
  · intro chars
    constructor
    · rw [show renderBuf chars = renderChars chars ++ [0] from rfl]
      rw [getD_append_right _ _ _ _ (Nat.le_refl _)]
      simp
    · rw [show renderBuf chars = renderChars chars ++ [0] from rfl]
      rw [take_append_of_le _ _ _ (Nat.le_refl _), List.take_length]

/-- Concrete instantiation of `row_buffers_nul_terminated` on the loaded
C-file document, hypotheses checked by evaluation. -/
theorem row_buffers_nul_terminated_witness :
    0 < commentDoc.rows.length ∧
    0 < ((commentDoc.rows.getD 0 default).chars).length ∧
    charsBufInsertChar ((commentDoc.rows.getD 0 default).chars ++ [0])
        (commentDoc.rows.getD 0 default).chars.length 0 97 =
      ((editorRowInsertChar commentDoc 0 0 97).rows.getD 0 default).chars ++ [0] ∧
    charsBufAppendString ((commentDoc.rows.getD 0 default).chars ++ [0])
        (commentDoc.rows.getD 0 default).chars.length [97] =
      ((editorRowAppendString commentDoc 0 [97]).rows.getD 0 default).chars ++ [0] ∧
    charsBufDelChar ((commentDoc.rows.getD 0 default).chars ++ [0])
        (commentDoc.rows.getD 0 default).chars.length 0 =
      ((editorRowDelChar commentDoc 0 0).rows.getD 0 default).chars ++ [0] ∧
    (([47, 42] : List Nat) ++ [0]).getD 2 5 = ([47, 42] : List Nat).getD 2 0 ∧
    strstrIdx (renderBuf [47, 42]) [42] = strstrIdx (renderChars [47, 42]) [42] :=
  ⟨by decide, by decide,
   row_buffers_nul_terminated.1 commentDoc 0 0 97 (by decide),
   row_buffers_nul_terminated.2.1 commentDoc 0 [97] (by decide),
   row_buffers_nul_terminated.2.2.1 commentDoc 0 0 (by decide) (by decide),
   row_buffers_nul_terminated.2.2.2.2.2.1 [47, 42] 2 5 (by decide),
   row_buffers_nul_terminated.2.2.2.2.2.2.2 [47, 42] [42] (by decide)⟩
